import Mathlib

/-!
# Gauche bignum.c: a shallow embedding

The definitions follow `src/bignum.c` function by function.  Machine words are
natural numbers below `2^W` (`W = WORD_BITS = SIZEOF_LONG * 8`), C `long` and
`int` values are integers, and every conversion between the two is written
out.  A read or write outside the allocated words of an object has no defined
result in C; here such an access makes the function return `none` (in the shift
routines, whose loops are run for a bounded number of iterations, a `Run.fault`
that says what went wrong).

`gauche.h` is not among the sources, so the word width `W`, the width `IB` of
a C `int`, and the small-integer bounds `SCM_SMALL_INT_MIN` / `SCM_SMALL_INT_MAX`
are parameters (`SMIN`, `SMAX`).
-/

namespace Gauche

/-! ## C integer conversions -/

/-- Conversion of a C integer value to `unsigned long`: reduction modulo `2^W`. -/
def toULong (W : Nat) (z : Int) : Nat := (z % (2 : Int) ^ W).toNat

/-- Conversion of an `unsigned long` to `long`: two's complement reading of the
low `W` bits. -/
def toSLong (W : Nat) (n : Nat) : Int :=
  if n % 2 ^ W < 2 ^ (W - 1) then ((n % 2 ^ W : Nat) : Int)
  else ((n % 2 ^ W : Nat) : Int) - (2 : Int) ^ W

/-- Result of a `long` computation whose mathematical value is `z`, with
overflow wrapping around in two's complement. -/
def wrapLong (W : Nat) (z : Int) : Int := toSLong W (toULong W z)

/-- The C constant `LONG_MIN` for a `W`-bit `long`. -/
def LONG_MIN (W : Nat) : Int := -(2 : Int) ^ (W - 1)

/-- The C constant `LONG_MAX`, defined in the source as `-(LONG_MIN+1)`. -/
def LONG_MAX (W : Nat) : Int := -(LONG_MIN W + 1)

/-- The all-ones word `SCM_ULONG_MAX = (u_long)(-1L)`. -/
def SCM_ULONG_MAX (W : Nat) : Nat := toULong W (-1)

/-! ## Data model -/

/-- The C struct `ScmBignum`: `sign`, `size` and the allocated words `values`
(least significant first).  `values.length` is the number of words that were
allocated for the object; `size` may be smaller after normalization. -/
structure ScmBignum where
  sign : Int
  size : Nat
  values : List Nat
  deriving DecidableEq, Repr

/-- A Scheme object as far as this file is concerned: a native small integer
or a pointer to a bignum. -/
inductive ScmObj where
  | int (v : Int)
  | bignum (b : ScmBignum)
  deriving DecidableEq, Repr

/-- Contents of freshly allocated storage.  `make_bignum` allocates with
`SCM_NEW_ATOMIC2` and stores only the size, so the sign and the words of a new
object hold whatever was in memory. -/
structure Junk where
  sign : Int
  word : Nat → Nat

/-- Read `b->values[i]`; `none` outside the allocated words. -/
def rd (b : ScmBignum) (i : Nat) : Option Nat := b.values[i]?

/-- Write `values[i] = v` into a word buffer; `none` outside the buffer. -/
def wr (r : List Nat) (i : Nat) (v : Nat) : Option (List Nat) :=
  if i < r.length then some (r.set i v) else none

/-- Modelled from the spec: `SCM_MAKE_INT` (from gauche.h, not among the
sources) returns the native integer holding the given `long`. -/
def SCM_MAKE_INT (z : Int) : ScmObj := ScmObj.int z

/-- The magnitude held in the first `n` words of a buffer:
`sum_{i<n} values[i] * 2^(W*i)`. -/
def magnitude (W : Nat) (vs : List Nat) (n : Nat) : Nat :=
  ((List.range n).map (fun i => vs.getD i 0 * 2 ^ (W * i))).sum

/-- The integer a bignum denotes: `sign * sum_i values[i] * 2^(W*i)` over the
`size` words in use. -/
def value (W : Nat) (b : ScmBignum) : Int :=
  b.sign * (magnitude W b.values b.size : Nat)

/-- The integer a Scheme object denotes; a native integer denotes itself. -/
def denote (W : Nat) : ScmObj → Int
  | ScmObj.int v => v
  | ScmObj.bignum b => value W b

/-! ## Constructor -/

/-- The function `make_bignum(size)`: a new object with `size` words; only the
size field is initialised. -/
def make_bignum (W : Nat) (junk : Junk) (size : Nat) : ScmBignum :=
  { sign := junk.sign, size := size,
    values := (List.range size).map (fun i => junk.word i % 2 ^ W) }

/-- The function `Scm_MakeBignumFromSI(val)`. -/
def Scm_MakeBignumFromSI (W : Nat) (junk : Junk) (val : Int) : ScmBignum :=
  if val = LONG_MIN W then
    let b := make_bignum W junk 2
    { b with sign := -1, values := (b.values.set 0 0).set 1 1 }
  else if val < 0 then
    let b := make_bignum W junk 1
    { b with sign := -1, values := b.values.set 0 (toULong W (wrapLong W (-val))) }
  else
    let b := make_bignum W junk 1
    { b with sign := 1, values := b.values.set 0 (toULong W val) }

/-- The copying loop of `Scm_BignumCopy`: `n` iterations remain, the next index
is `i`, and `c` is the word buffer of the copy. -/
def copy_loop (b : ScmBignum) : Nat → Nat → List Nat → Option (List Nat)
  | 0, _, c => some c
  | n + 1, i, c =>
    match rd b i with
    | none => none
    | some v =>
      match wr c i v with
      | none => none
      | some c1 => copy_loop b n (i + 1) c1

/-- The function `Scm_BignumCopy(b)`. -/
def Scm_BignumCopy (W : Nat) (junk : Junk) (b : ScmBignum) : Option ScmBignum :=
  let c := make_bignum W junk b.size
  match copy_loop b b.size 0 c.values with
  | none => none
  | some vs => some { c with sign := b.sign, values := vs }

/-! ## Conversion -/

/-- The loop of `Scm_NormalizeBignum`, entered with index `i` and the local
`size`; it returns the final `(i, size)`. -/
def normalize_loop (b : ScmBignum) : Nat → Nat → Option (Nat × Nat)
  | 0, size => some (0, size)
  | i + 1, size =>
    match rd b (i + 1) with
    | none => none
    | some v => if v = 0 then normalize_loop b i (size - 1) else some (i + 1, size)

/-- The function `Scm_NormalizeBignum(b)`.  With `b->size == 0` the index
starts at `-1`, the loop is skipped and `i == 0` is false. -/
def Scm_NormalizeBignum (W : Nat) (SMIN SMAX : Int) (b : ScmBignum) : Option ScmObj :=
  match b.size with
  | 0 => some (ScmObj.bignum { b with size := 0 })
  | n + 1 =>
    match normalize_loop b n (n + 1) with
    | none => none
    | some (i, size) =>
      if i = 0 then
        if b.sign = 0 then some (SCM_MAKE_INT 0)
        else
          match rd b 0 with
          | none => none
          | some v0 =>
            if b.sign > 0 ∧ v0 ≤ toULong W SMAX then
              some (SCM_MAKE_INT (toSLong W v0))
            else if b.sign < 0 ∧ v0 ≤ toULong W (wrapLong W (-SMIN)) then
              some (SCM_MAKE_INT (toSLong W (toULong W (-(v0 : Int)))))
            else some (ScmObj.bignum { b with size := size })
      else some (ScmObj.bignum { b with size := size })

/-- The function `Scm_BignumToSI(b)`.  The second operand of `&&` is read only
when `b->values[0] == 0`. -/
def Scm_BignumToSI (W : Nat) (b : ScmBignum) : Option Int :=
  match rd b 0 with
  | none => none
  | some v0 =>
    if b.sign ≥ 0 then
      let r := toSLong W v0
      some (if r < 0 then LONG_MAX W else r)
    else if v0 = 0 then
      match rd b 1 with
      | none => none
      | some v1 =>
        if v1 ≠ 0 then some (LONG_MIN W) else some (wrapLong W (-(toSLong W v0)))
    else some (wrapLong W (-(toSLong W v0)))

/-- The function `Scm_BignumNegate(b)`: copy, flip the sign of the copy,
normalize the copy. -/
def Scm_BignumNegate (W : Nat) (SMIN SMAX : Int) (junk : Junk) (b : ScmBignum) :
    Option ScmObj :=
  match Scm_BignumCopy W junk b with
  | none => none
  | some c => Scm_NormalizeBignum W SMIN SMAX { c with sign := -c.sign }

/-! ## Add and subtract -/

/-- The function `bignum_safe_size_for_add(x, y)`. -/
def bignum_safe_size_for_add (W : Nat) (x y : ScmBignum) : Option Nat :=
  let xsize := x.size
  let ysize := y.size
  if xsize > ysize then
    match rd x (xsize - 1) with
    | none => none
    | some top => if top = SCM_ULONG_MAX W then some (xsize + 1) else some xsize
  else if ysize > xsize then
    match rd y (ysize - 1) with
    | none => none
    | some top => if top = SCM_ULONG_MAX W then some (ysize + 1) else some ysize
  else some (xsize + 1)

/-- The statement pair `UADD(r, c, x, y)`: `r = x + y + c` stored in an
unsigned word, then `c = (r<x || (r==x && (y>0||c>0)))? 1 : 0`.  The arguments
are the C values of the argument expressions; the comparisons with `r` are made
after conversion to `unsigned long`, the tests `y>0` and `c>0` in the
arguments' own types.  The result is the new `(r, c)`. -/
def UADD (W : Nat) (x y c : Int) : Nat × Int :=
  let r := toULong W (x + y + c)
  (r, if r < toULong W x ∨ (r = toULong W x ∧ (y > 0 ∨ c > 0)) then 1 else 0)

/-- The statement pair `USUB(r, c, x, y)`: `r = x - y - c`, then
`c = (r>x || (r==x && (y>0||c>0)))? 1 : 0`. -/
def USUB (W : Nat) (x y c : Int) : Nat × Int :=
  let r := toULong W (x - y - c)
  (r, if r > toULong W x ∨ (r = toULong W x ∧ (y > 0 ∨ c > 0)) then 1 else 0)

/-- The bitwise complement `~v` of a word, as the `long` it is assigned to. -/
def complLong (W : Nat) (v : Nat) : Int := toSLong W (2 ^ W - 1 - v % 2 ^ W)

/-- The loop of `bignum_2scmpl`: `n` iterations remain, the index is `i`, the
carry is `c` and `r` is the word buffer `br->values`.  It returns the buffer
and the carry at loop exit. -/
def scmpl_loop (W : Nat) : Nat → Nat → Int → List Nat → Option (List Nat × Int)
  | 0, _, c, r => some (r, c)
  | n + 1, i, c, r =>
    match r[i]? with
    | none => none
    | some v =>
      let x := complLong W v
      let u := UADD W x 0 c
      match wr r i u.1 with
      | none => none
      | some r1 => scmpl_loop W n (i + 1) u.2 r1

/-- The function `bignum_2scmpl(br)`; a failing `SCM_ASSERT(c == 0)` gives
`none`. -/
def bignum_2scmpl (W : Nat) (br : ScmBignum) : Option ScmBignum :=
  match scmpl_loop W br.size 0 1 br.values with
  | none => none
  | some (r, c) => if c = 0 then some { br with values := r } else none

/-- The loop of `bignum_add_int`: `n = rsize - i` iterations remain; `xsize`
and `ysize` are the C locals, decremented on every iteration (also after
`continue`), so they are integers and go below zero. -/
def add_int_loop (W : Nat) (bx y : ScmBignum) :
    Nat → Nat → Int → Int → Int → List Nat → Option (List Nat × Int)
  | 0, _, _, _, c, r => some (r, c)
  | n + 1, i, xsize, ysize, c, r =>
    if xsize = 0 then
      if ysize = 0 then
        let u := UADD W 0 0 c
        match wr r i u.1 with
        | none => none
        | some r1 => add_int_loop W bx y n (i + 1) (xsize - 1) (ysize - 1) u.2 r1
      else
        match rd y i with
        | none => none
        | some yv =>
          let u := UADD W 0 yv c
          match wr r i u.1 with
          | none => none
          | some r1 => add_int_loop W bx y n (i + 1) (xsize - 1) (ysize - 1) u.2 r1
    else if ysize = 0 then
      match rd bx i with
      | none => none
      | some xv =>
        let u := UADD W xv 0 c
        match wr r i u.1 with
        | none => none
        | some r1 => add_int_loop W bx y n (i + 1) (xsize - 1) (ysize - 1) u.2 r1
    else
      match rd bx i with
      | none => none
      | some xv =>
        match rd y i with
        | none => none
        | some yv =>
          let u := UADD W xv yv c
          match wr r i u.1 with
          | none => none
          | some r1 => add_int_loop W bx y n (i + 1) (xsize - 1) (ysize - 1) u.2 r1

/-- The function `bignum_add_int(br, bx, by)`. -/
def bignum_add_int (W : Nat) (br bx y : ScmBignum) : Option ScmBignum :=
  match add_int_loop W bx y br.size 0 bx.size y.size 0 br.values with
  | none => none
  | some (r, _) => some { br with values := r }

/-- The loop of `bignum_sub_int`, with the same locals as `add_int_loop`. -/
def sub_int_loop (W : Nat) (bx y : ScmBignum) :
    Nat → Nat → Int → Int → Int → List Nat → Option (List Nat × Int)
  | 0, _, _, _, c, r => some (r, c)
  | n + 1, i, xsize, ysize, c, r =>
    if xsize = 0 then
      if ysize = 0 then
        let u := USUB W 0 0 c
        match wr r i u.1 with
        | none => none
        | some r1 => sub_int_loop W bx y n (i + 1) (xsize - 1) (ysize - 1) u.2 r1
      else
        match rd y i with
        | none => none
        | some yv =>
          let u := USUB W 0 yv c
          match wr r i u.1 with
          | none => none
          | some r1 => sub_int_loop W bx y n (i + 1) (xsize - 1) (ysize - 1) u.2 r1
    else if ysize = 0 then
      match rd bx i with
      | none => none
      | some xv =>
        let u := USUB W xv 0 c
        match wr r i u.1 with
        | none => none
        | some r1 => sub_int_loop W bx y n (i + 1) (xsize - 1) (ysize - 1) u.2 r1
    else
      match rd bx i with
      | none => none
      | some xv =>
        match rd y i with
        | none => none
        | some yv =>
          let u := USUB W xv yv c
          match wr r i u.1 with
          | none => none
          | some r1 => sub_int_loop W bx y n (i + 1) (xsize - 1) (ysize - 1) u.2 r1

/-- The function `bignum_sub_int(br, bx, by)`.  The diagnostic `fprintf` to
stderr does not touch the objects and is left out. -/
def bignum_sub_int (W : Nat) (br bx y : ScmBignum) : Option ScmBignum :=
  match sub_int_loop W bx y br.size 0 bx.size y.size 0 br.values with
  | none => none
  | some (r, c) =>
    let br1 := { br with values := r }
    if c ≠ 0 then
      match bignum_2scmpl W br1 with
      | none => none
      | some br2 => some { br2 with sign := 0 - br2.sign }
    else some br1

/-- The function `bignum_add(bx, by)`: `bx + by`, not normalized. -/
def bignum_add (W : Nat) (junk : Junk) (bx y : ScmBignum) : Option ScmBignum :=
  match bignum_safe_size_for_add W bx y with
  | none => none
  | some rsize =>
    let br := { make_bignum W junk rsize with sign := bx.sign }
    if bx.sign = y.sign then bignum_add_int W br bx y
    else bignum_sub_int W br bx y

/-- The function `bignum_sub(bx, by)`: `bx - by`, not normalized. -/
def bignum_sub (W : Nat) (junk : Junk) (bx y : ScmBignum) : Option ScmBignum :=
  match bignum_safe_size_for_add W bx y with
  | none => none
  | some rsize =>
    let br := { make_bignum W junk rsize with sign := bx.sign }
    if bx.sign = y.sign then bignum_sub_int W br bx y
    else bignum_add_int W br bx y

/-- Conversion of a `long` to `int` (`IB` bits), wrapping in two's complement. -/
def toInt (IB : Nat) (z : Int) : Int := toSLong IB (toULong IB z)

/-- The first loop of `bignum_add_si`: `n = bx->size - i` iterations remain;
`yabs` is the C `int` local, set to zero after the first iteration. -/
def add_si_uadd_loop (W : Nat) (bx : ScmBignum) :
    Nat → Nat → Int → Int → List Nat → Option (List Nat × Int)
  | 0, _, c, _, r => some (r, c)
  | n + 1, i, c, yabs, r =>
    match rd bx i with
    | none => none
    | some xv =>
      let u := UADD W xv yabs c
      match wr r i u.1 with
      | none => none
      | some r1 => add_si_uadd_loop W bx n (i + 1) u.2 0 r1

/-- The second loop of `bignum_add_si`, with `USUB`. -/
def add_si_usub_loop (W : Nat) (bx : ScmBignum) :
    Nat → Nat → Int → Int → List Nat → Option (List Nat × Int)
  | 0, _, c, _, r => some (r, c)
  | n + 1, i, c, yabs, r =>
    match rd bx i with
    | none => none
    | some xv =>
      let u := USUB W xv yabs c
      match wr r i u.1 with
      | none => none
      | some r1 => add_si_usub_loop W bx n (i + 1) u.2 0 r1

/-- The function `bignum_add_si(bx, y)`: the result buffer has `bx->size + 1`
words, the loops run over the `bx->size` words of `bx`, and the carry left in
`c` at loop exit is not used. -/
def bignum_add_si (W IB : Nat) (junk : Junk) (bx : ScmBignum) (y : Int) :
    Option ScmBignum :=
  let rsize := bx.size + 1
  let yabs := toInt IB (if y < 0 then wrapLong W (-y) else y)
  let ysign : Int := if y < 0 then -1 else 1
  if y = 0 then some bx
  else
    let br := { make_bignum W junk rsize with sign := bx.sign }
    if bx.sign = ysign then
      match add_si_uadd_loop W bx bx.size 0 0 yabs br.values with
      | none => none
      | some (r, _) => some { br with values := r }
    else
      match add_si_usub_loop W bx bx.size 0 0 yabs br.values with
      | none => none
      | some (r, _) => some { br with values := r }

/-- The function `Scm_BignumAdd(bx, by)`. -/
def Scm_BignumAdd (W : Nat) (SMIN SMAX : Int) (junk : Junk) (bx y : ScmBignum) :
    Option ScmObj :=
  match bignum_add W junk bx y with
  | none => none
  | some br => Scm_NormalizeBignum W SMIN SMAX br

/-- The function `Scm_BignumSub(bx, by)`. -/
def Scm_BignumSub (W : Nat) (SMIN SMAX : Int) (junk : Junk) (bx y : ScmBignum) :
    Option ScmObj :=
  match bignum_sub W junk bx y with
  | none => none
  | some br => Scm_NormalizeBignum W SMIN SMAX br

/-- The function `Scm_BignumAddSI(bx, y)`. -/
def Scm_BignumAddSI (W IB : Nat) (SMIN SMAX : Int) (junk : Junk) (bx : ScmBignum)
    (y : Int) : Option ScmObj :=
  match bignum_add_si W IB junk bx y with
  | none => none
  | some br => Scm_NormalizeBignum W SMIN SMAX br

/-- The function `Scm_BignumSubSI(bx, y)`. -/
def Scm_BignumSubSI (W IB : Nat) (SMIN SMAX : Int) (junk : Junk) (bx : ScmBignum)
    (y : Int) : Option ScmObj :=
  match bignum_add_si W IB junk bx (wrapLong W (-y)) with
  | none => none
  | some br => Scm_NormalizeBignum W SMIN SMAX br

/-! ## Reads made by the add and subtract loops -/

/-- One read of an operand word: `bx->values[i]` or `by->values[i]`. -/
inductive OperandRead where
  | x (i : Nat)
  | y (i : Nat)
  deriving DecidableEq, Repr

/-- The reads made by the loop of `bignum_add_int`, in order: `n = rsize - i`
iterations remain and `xsize`, `ysize` are the C locals.  Which words are read
depends on these counters only. -/
def add_int_reads : Nat → Nat → Int → Int → List OperandRead
  | 0, _, _, _ => []
  | n + 1, i, xsize, ysize =>
    (if xsize = 0 then
      if ysize = 0 then []
      else [OperandRead.y i]
    else if ysize = 0 then [OperandRead.x i]
    else [OperandRead.x i, OperandRead.y i])
      ++ add_int_reads n (i + 1) (xsize - 1) (ysize - 1)

/-- The reads made by the loop of `bignum_sub_int`; the loop has the same
branches as that of `bignum_add_int`. -/
def sub_int_reads : Nat → Nat → Int → Int → List OperandRead
  | 0, _, _, _ => []
  | n + 1, i, xsize, ysize =>
    (if xsize = 0 then
      if ysize = 0 then []
      else [OperandRead.y i]
    else if ysize = 0 then [OperandRead.x i]
    else [OperandRead.x i, OperandRead.y i])
      ++ sub_int_reads n (i + 1) (xsize - 1) (ysize - 1)

/-- A read stays inside the words in use of its operand. -/
def OperandRead.inside (bx y : ScmBignum) : OperandRead → Prop
  | OperandRead.x i => i < bx.size
  | OperandRead.y i => i < y.size

instance (bx y : ScmBignum) (a : OperandRead) : Decidable (OperandRead.inside bx y a) := by
  cases a <;> unfold OperandRead.inside <;> infer_instance

/-! ## Folds over an operand list -/

/-- An element of the argument list of `Scm_BignumAddN` / `Scm_BignumSubN`, by
the type tests the loops make: `SCM_INTP`, `SCM_BIGNUMP`, `SCM_FLONUMP`,
`SCM_COMPLEXP`, or none of them.  Objects that are not integers are kept by an
identifying number only. -/
inductive Operand where
  | int (v : Int)
  | bignum (b : ScmBignum)
  | flonum (id : Nat)
  | complex (id : Nat)
  | other (id : Nat)
  deriving DecidableEq, Repr

/-- The operand passes `SCM_INTP` or `SCM_BIGNUMP`. -/
def Operand.isInteger : Operand → Bool
  | Operand.int _ => true
  | Operand.bignum _ => true
  | _ => false

/-- How a fold ends: `Scm_Error("number expected, but got %S", v)`; the call of
the generic `Scm_Add` / `Scm_Subtract` with the accumulator and the remaining
operands; or `Scm_NormalizeBignum(r)`.  An accumulator is `none` when it was
computed from a read outside an operand and so has no defined value; the type
tests on the operands do not look at the accumulator. -/
inductive FoldResult where
  | numberExpected (v : Operand)
  | promoted (acc : Option ScmBignum) (rest : List Operand)
  | value (r : Option ScmObj)
  deriving DecidableEq, Repr

/-- The function `Scm_BignumAddN(bx, args)`; `junk k` is the content of the
`k`-th fresh allocation. -/
def Scm_BignumAddN (W IB : Nat) (SMIN SMAX : Int) :
    (Nat → Junk) → Option ScmBignum → List Operand → FoldResult
  | _, r, [] => FoldResult.value (r.bind (Scm_NormalizeBignum W SMIN SMAX))
  | junk, r, Operand.int v :: args =>
    Scm_BignumAddN W IB SMIN SMAX (fun k => junk (k + 1))
      (r.bind (fun r0 => bignum_add_si W IB (junk 0) r0 v)) args
  | junk, r, Operand.bignum b :: args =>
    Scm_BignumAddN W IB SMIN SMAX (fun k => junk (k + 1))
      (r.bind (fun r0 => bignum_add W (junk 0) r0 b)) args
  | _, r, Operand.flonum id :: args => FoldResult.promoted r (Operand.flonum id :: args)
  | _, r, Operand.complex id :: args => FoldResult.promoted r (Operand.complex id :: args)
  | _, _, Operand.other id :: _ => FoldResult.numberExpected (Operand.other id)

/-- The function `Scm_BignumSubN(bx, args)`. -/
def Scm_BignumSubN (W IB : Nat) (SMIN SMAX : Int) :
    (Nat → Junk) → Option ScmBignum → List Operand → FoldResult
  | _, r, [] => FoldResult.value (r.bind (Scm_NormalizeBignum W SMIN SMAX))
  | junk, r, Operand.int v :: args =>
    Scm_BignumSubN W IB SMIN SMAX (fun k => junk (k + 1))
      (r.bind (fun r0 => bignum_add_si W IB (junk 0) r0 (wrapLong W (-v)))) args
  | junk, r, Operand.bignum b :: args =>
    Scm_BignumSubN W IB SMIN SMAX (fun k => junk (k + 1))
      (r.bind (fun r0 => bignum_sub W (junk 0) r0 b)) args
  | _, r, Operand.flonum id :: args => FoldResult.promoted r (Operand.flonum id :: args)
  | _, r, Operand.complex id :: args => FoldResult.promoted r (Operand.complex id :: args)
  | _, _, Operand.other id :: _ => FoldResult.numberExpected (Operand.other id)

/-! ## Shifter -/

/-- What stops a shift routine short of a result: an access outside an object,
a shift of a word by a count that is not below the word width, or, in this
model only, the end of the iteration budget. -/
inductive Fault where
  | bounds
  | shiftCount
  | budget
  deriving DecidableEq, Repr

/-- Result of a shift routine. -/
inductive Run (α : Type) where
  | ok (a : α)
  | fault (f : Fault)
  deriving DecidableEq, Repr

/-- The C expression `x >> n` on an `unsigned long`; undefined unless `n < W`. -/
def shiftRight (W x n : Nat) : Option Nat := if n < W then some (x / 2 ^ n) else none

/-- The C expression `x << n` on an `unsigned long`; undefined unless `n < W`. -/
def shiftLeft (W x n : Nat) : Option Nat :=
  if n < W then some ((x * 2 ^ n) % 2 ^ W) else none

/-- Read `bx->values[i]` with a C `int` index. -/
def rdInt (b : ScmBignum) (i : Int) : Option Nat :=
  if i < 0 then none else rd b i.toNat

/-- Write `values[i] = v` with a C `int` index. -/
def wrInt (r : List Nat) (i : Int) (v : Nat) : Option (List Nat) :=
  if i < 0 then none else wr r i.toNat v

/-- The loop of `bignum_rshift`, `for (i = nwords; i < bx->size; i--)`: at most
`budget` iterations are run; `i` and `prev` are the C locals and `r` is
`br->values`. -/
def rshift_loop (W : Nat) (bx : ScmBignum) (nwords nbits : Nat) :
    Nat → Int → Nat → List Nat → Run (List Nat)
  | 0, _, _, _ => Run.fault Fault.budget
  | budget + 1, i, prev, r =>
    if i < bx.size then
      match rdInt bx i with
      | none => Run.fault Fault.bounds
      | some v =>
        match shiftRight W v nbits with
        | none => Run.fault Fault.shiftCount
        | some lowered =>
          let x := lowered ||| prev
          match shiftLeft W v (W - nbits) with
          | none => Run.fault Fault.shiftCount
          | some prev1 =>
            match wrInt r (i - nwords) x with
            | none => Run.fault Fault.bounds
            | some r1 => rshift_loop W bx nwords nbits budget (i - 1) prev1 r1
    else Run.ok r

/-- The function `bignum_rshift(br, bx, amount)` for `amount >= 0`. -/
def bignum_rshift (W budget : Nat) (br bx : ScmBignum) (amount : Nat) : Run ScmBignum :=
  let nwords := amount / W
  let nbits := amount % W
  if bx.size ≤ nwords then
    match wr br.values 0 0 with
    | none => Run.fault Fault.bounds
    | some vs => Run.ok { br with size := 0, values := vs }
  else
    match rshift_loop W bx nwords nbits budget nwords 0 br.values with
    | Run.fault f => Run.fault f
    | Run.ok vs => Run.ok { sign := bx.sign, size := bx.size - nwords, values := vs }

/-- The loop of `bignum_lshift`, `for (i = bx->size-1; i >= 0; i++)`. -/
def lshift_loop (W : Nat) (bx : ScmBignum) (nwords nbits mask : Nat) :
    Nat → Int → Nat → List Nat → Run (List Nat)
  | 0, _, _, _ => Run.fault Fault.budget
  | budget + 1, i, prev, r =>
    if i ≥ 0 then
      match rdInt bx i with
      | none => Run.fault Fault.bounds
      | some v =>
        match shiftLeft W v nbits with
        | none => Run.fault Fault.shiftCount
        | some raised =>
          let x := raised ||| prev
          match shiftRight W v (W - nbits) with
          | none => Run.fault Fault.shiftCount
          | some carried =>
            let prev1 := carried &&& mask
            match wrInt r (i + nwords) x with
            | none => Run.fault Fault.bounds
            | some r1 => lshift_loop W bx nwords nbits mask budget (i + 1) prev1 r1
    else Run.ok r

/-- The function `bignum_lshift(br, bx, amount)` for `amount >= 0`; the local
`mask` is `(1L<<nbits)-1`. -/
def bignum_lshift (W budget : Nat) (br bx : ScmBignum) (amount : Nat) : Run ScmBignum :=
  let nwords := amount / W
  let nbits := amount % W
  let mask := 2 ^ nbits - 1
  match lshift_loop W bx nwords nbits mask budget ((bx.size : Int) - 1) 0 br.values with
  | Run.fault f => Run.fault f
  | Run.ok vs => Run.ok { sign := bx.sign, size := bx.size + nwords, values := vs }

/-! ## Multiplication -/

/-- The constant `WORD_BITS = SIZEOF_LONG * 8`. -/
def WORD_BITS (SIZEOF_LONG : Nat) : Nat := SIZEOF_LONG * 8

/-- The constant `HALF_BITS = WORD_BITS/2`. -/
def HALF_BITS (W : Nat) : Nat := W / 2

/-- The constant `LOMASK = (1L<<HALF_BITS)-1`. -/
def LOMASK (W : Nat) : Nat := 2 ^ HALF_BITS W - 1

/-- The expression `LO(word) = word & LOMASK`. -/
def LO (W word : Nat) : Nat := word &&& LOMASK W

/-- The expression `HI(word) = (word >> HALF_BITS) & LOMASK`. -/
def HI (W word : Nat) : Nat := (word >>> HALF_BITS W) &&& LOMASK W

/-- The block `UMUL(hi, lo, x, y)`; every assignment is to an `unsigned long`
and is reduced modulo `2^W`.  The result is `(hi, lo)`. -/
def UMUL (W : Nat) (x y : Nat) : Nat × Nat :=
  let xl := LO W x
  let xh := HI W x
  let yl := LO W y
  let yh := HI W y
  let lo := (xl * yl) % 2 ^ W
  let t1 := (xl * yh) % 2 ^ W
  let t2 := (xh * yl) % 2 ^ W
  let hi := (xh * yh) % 2 ^ W
  let t3 := (t1 + t2) % 2 ^ W
  let hi1 := if t3 < t1 then (hi + 2 ^ HALF_BITS W) % 2 ^ W else hi
  let hi2 := (hi1 + HI W t3) % 2 ^ W
  let t4 := (LO W t3 * 2 ^ HALF_BITS W) % 2 ^ W
  let lo1 := (lo + t4) % 2 ^ W
  let hi3 := if lo1 < t4 then (hi2 + 1) % 2 ^ W else hi2
  (hi3, lo1)

/-- The loop of `bignum_mul_word`: `n = bx->size - i` iterations remain.  Each
iteration reads `bx->values[i]` and `br->values[i]` and computes the locals
`hi, lo, r1, c1, r2, c2`; nothing is stored in `br` and `prev` stays 0.  The
result is the last `(r2, c2)` computed, if any. -/
def mul_word_loop (W : Nat) (br bx : ScmBignum) (y : Nat) :
    Nat → Nat → Option (Nat × Int) → Option (Option (Nat × Int))
  | 0, _, last => some last
  | n + 1, i, _ =>
    match rd bx i with
    | none => none
    | some x =>
      match rd br i with
      | none => none
      | some r0 =>
        let hilo := UMUL W x y
        let u1 := UADD W r0 hilo.2 0
        let u2 := UADD W u1.1 0 0
        mul_word_loop W br bx y n (i + 1) (some u2)

/-- The function `bignum_mul_word(br, bx, y)`: the pair of `br` as it is after
the call and the returned pointer, which is `NULL` (`none`). -/
def bignum_mul_word (W : Nat) (br bx : ScmBignum) (y : Nat) :
    Option (ScmBignum × Option ScmBignum) :=
  match mul_word_loop W br bx y bx.size 0 none with
  | none => none
  | some _ => some (br, none)

/-! ## Objects with identity

The functions above work on the contents of one object.  To say that an
operation leaves its argument alone, objects need an identity: a heap is the
list of bignum objects allocated so far and a pointer is an index into it. -/

/-- The heap of bignum objects; a pointer is an index. -/
abbrev Heap := List ScmBignum

/-- A Scheme object whose bignum case is a pointer into the heap. -/
inductive ScmRef where
  | int (v : Int)
  | ptr (p : Nat)
  deriving DecidableEq, Repr

/-- The function `Scm_BignumCopy(b)` on the heap: the copy is a new object,
placed after all existing ones. -/
def Scm_BignumCopy_heap (W : Nat) (junk : Junk) (h : Heap) (p : Nat) :
    Option (Heap × Nat) :=
  match h[p]? with
  | none => none
  | some b =>
    match Scm_BignumCopy W junk b with
    | none => none
    | some c => some (h ++ [c], h.length)

/-- The function `Scm_NormalizeBignum(b)` on the heap: when the bignum is kept,
`b->size` is updated in the object itself and the same pointer is returned. -/
def Scm_NormalizeBignum_heap (W : Nat) (SMIN SMAX : Int) (h : Heap) (p : Nat) :
    Option (Heap × ScmRef) :=
  match h[p]? with
  | none => none
  | some b =>
    match Scm_NormalizeBignum W SMIN SMAX b with
    | none => none
    | some (ScmObj.int v) => some (h, ScmRef.int v)
    | some (ScmObj.bignum b1) => some (h.set p b1, ScmRef.ptr p)

/-- The function `Scm_BignumNegate(b)` on the heap: `c = Scm_BignumCopy(b)`,
then the sign of `c` is flipped in place, then `c` is normalized. -/
def Scm_BignumNegate_heap (W : Nat) (SMIN SMAX : Int) (junk : Junk) (h : Heap) (p : Nat) :
    Option (Heap × ScmRef) :=
  match Scm_BignumCopy_heap W junk h p with
  | none => none
  | some (h1, q) =>
    match h1[q]? with
    | none => none
    | some c => Scm_NormalizeBignum_heap W SMIN SMAX (h1.set q { c with sign := -c.sign }) q

/-! ## Well-formedness -/

/-- The representation invariant of the C object: the words in use lie inside
the allocation, and every allocated word is a `W`-bit word. -/
def WellFormed (W : Nat) (b : ScmBignum) : Prop :=
  b.size ≤ b.values.length ∧ ∀ w ∈ b.values, w < 2 ^ W

/-- A normalized bignum, as `Scm_NormalizeBignum` retains it: at least one word,
a non-zero most significant word, sign `+1` or `-1`, and a value outside the
small-integer range. -/
def Normalized (W : Nat) (SMIN SMAX : Int) (b : ScmBignum) : Prop :=
  WellFormed W b ∧ 1 ≤ b.size ∧ b.values.getD (b.size - 1) 0 ≠ 0 ∧
    (b.sign = 1 ∨ b.sign = -1) ∧ ¬ (SMIN ≤ value W b ∧ value W b ≤ SMAX)

/-- What the file needs to know about the small-integer range of gauche.h: it
contains zero and lies inside the range of a `long`. -/
def SmallRange (W : Nat) (SMIN SMAX : Int) : Prop :=
  0 < W ∧ SMIN ≤ 0 ∧ 0 ≤ SMAX ∧ -(2 : Int) ^ (W - 1) ≤ SMIN ∧ SMAX < (2 : Int) ^ (W - 1)

instance (W : Nat) (b : ScmBignum) : Decidable (WellFormed W b) := by
  unfold WellFormed; infer_instance

instance (W : Nat) (SMIN SMAX : Int) (b : ScmBignum) : Decidable (Normalized W SMIN SMAX b) := by
  unfold Normalized; infer_instance

instance (W : Nat) (SMIN SMAX : Int) : Decidable (SmallRange W SMIN SMAX) := by
  unfold SmallRange; infer_instance

/-! ## Conversions: basic facts -/

theorem two_pow_cast (W : Nat) : ((2 : Int) ^ W) = ((2 ^ W : Nat) : Int) := by
  push_cast; rfl

theorem toULong_natCast (W n : Nat) : toULong W (n : Int) = n % 2 ^ W := by
  unfold toULong
  rw [two_pow_cast, ← Int.natCast_mod, Int.toNat_natCast]

theorem toULong_of_lt (W n : Nat) (h : n < 2 ^ W) : toULong W (n : Int) = n := by
  rw [toULong_natCast, Nat.mod_eq_of_lt h]

theorem toULong_cast (W : Nat) (z : Int) : ((toULong W z : Nat) : Int) = z % (2 : Int) ^ W := by
  unfold toULong
  have hpos : (0 : Int) < (2 : Int) ^ W := by positivity
  exact Int.toNat_of_nonneg (Int.emod_nonneg z (ne_of_gt hpos))

theorem toULong_lt (W : Nat) (z : Int) : toULong W z < 2 ^ W := by
  have hpos : (0 : Int) < (2 : Int) ^ W := by positivity
  have h2 := Int.emod_lt_of_pos z hpos
  rw [← toULong_cast, two_pow_cast] at h2
  exact_mod_cast h2

theorem toULong_of_nonneg_lt (W : Nat) (z : Int) (h0 : 0 ≤ z) (h : z < (2 : Int) ^ W) :
    ((toULong W z : Nat) : Int) = z := by
  rw [toULong_cast, Int.emod_eq_of_lt h0 h]

theorem two_pow_half (W : Nat) (hW : 0 < W) : 2 ^ W = 2 * 2 ^ (W - 1) := by
  obtain ⟨k, rfl⟩ : ∃ k, W = k + 1 := ⟨W - 1, by omega⟩
  simp [pow_succ, Nat.mul_comm]

theorem toSLong_of_lt_half (W n : Nat) (h : n < 2 ^ (W - 1)) : toSLong W n = n := by
  have hle : 2 ^ (W - 1) ≤ 2 ^ W := Nat.pow_le_pow_right (by decide) (Nat.sub_le W 1)
  have hn : n % 2 ^ W = n := Nat.mod_eq_of_lt (lt_of_lt_of_le h hle)
  unfold toSLong
  rw [hn, if_pos h]

theorem toSLong_of_ge_half (W n : Nat) (h : 2 ^ (W - 1) ≤ n) (hn : n < 2 ^ W) :
    toSLong W n = (n : Int) - (2 : Int) ^ W := by
  have hm : n % 2 ^ W = n := Nat.mod_eq_of_lt hn
  unfold toSLong
  rw [hm, if_neg (by omega)]

/-! ## Magnitudes -/

theorem magnitude_zero (W : Nat) (vs : List Nat) : magnitude W vs 0 = 0 := by
  simp [magnitude]

theorem magnitude_succ (W : Nat) (vs : List Nat) (n : Nat) :
    magnitude W vs (n + 1) = magnitude W vs n + vs.getD n 0 * 2 ^ (W * n) := by
  simp [magnitude, List.range_succ, List.map_append, List.sum_append]

theorem magnitude_one (W : Nat) (vs : List Nat) : magnitude W vs 1 = vs.getD 0 0 := by
  rw [magnitude_succ, magnitude_zero]; simp

theorem getD_lt_of_mem (W : Nat) (vs : List Nat) (h : ∀ w ∈ vs, w < 2 ^ W) (i : Nat) :
    vs.getD i 0 < 2 ^ W := by
  by_cases hi : i < vs.length
  · rw [List.getD_eq_getElem vs 0 hi]
    exact h _ (List.getElem_mem hi)
  · rw [List.getD_eq_default vs 0 (by omega)]
    positivity

theorem magnitude_lt (W : Nat) (vs : List Nat) (h : ∀ w ∈ vs, w < 2 ^ W) (n : Nat) :
    magnitude W vs n < 2 ^ (W * n) := by
  induction n with
  | zero => simp [magnitude_zero]
  | succ n ih =>
    rw [magnitude_succ]
    have hw := getD_lt_of_mem W vs h n
    have hp : 2 ^ (W * (n + 1)) = 2 ^ W * 2 ^ (W * n) := by
      rw [Nat.mul_succ, Nat.pow_add, Nat.mul_comm]
    rw [hp]
    have h1 : (vs.getD n 0 + 1) * 2 ^ (W * n) ≤ 2 ^ W * 2 ^ (W * n) :=
      Nat.mul_le_mul_right _ hw
    rw [Nat.add_mul, Nat.one_mul] at h1
    omega

theorem magnitude_ge_top (W : Nat) (vs : List Nat) (n : Nat) :
    vs.getD n 0 * 2 ^ (W * n) ≤ magnitude W vs (n + 1) := by
  rw [magnitude_succ]; omega

/-- Leading zero words do not contribute to the magnitude. -/
theorem magnitude_strip (W : Nat) (vs : List Nat) (k : Nat) :
    ∀ d : Nat, (∀ j, k ≤ j → j < k + d → vs.getD j 0 = 0) →
      magnitude W vs (k + d) = magnitude W vs k := by
  intro d
  induction d with
  | zero => intro _; rfl
  | succ d ih =>
    intro h
    have h0 : vs.getD (k + d) 0 = 0 := h (k + d) (by omega) (by omega)
    have h1 := ih (fun j hj1 hj2 => h j hj1 (by omega))
    rw [← Nat.add_assoc, magnitude_succ, h0, h1]; simp

theorem rd_of_lt (b : ScmBignum) (i : Nat) (h : i < b.values.length) :
    rd b i = some (b.values.getD i 0) := by
  unfold rd
  rw [List.getElem?_eq_getElem h, List.getD_eq_getElem _ _ h]

theorem rd_eq_some (b : ScmBignum) (i v : Nat) (h : rd b i = some v) :
    i < b.values.length ∧ b.values.getD i 0 = v := by
  unfold rd at h
  have hi : i < b.values.length := by
    by_contra hc
    rw [List.getElem?_eq_none (by omega)] at h
    exact Option.noConfusion h
  refine ⟨hi, ?_⟩
  rw [List.getElem?_eq_getElem hi] at h
  rw [List.getD_eq_getElem _ _ hi]
  exact Option.some.inj h

/-! ## Normalization -/

/-- The loop of `Scm_NormalizeBignum` stops at the highest non-zero word (or at
index 0), and has lowered `size` by the number of words it skipped. -/
theorem normalize_loop_spec (b : ScmBignum) :
    ∀ (i size : Nat), i < b.values.length →
      ∃ k, k ≤ i ∧ normalize_loop b i size = some (k, size - (i - k)) ∧
        (∀ j, k < j → j ≤ i → b.values.getD j 0 = 0) ∧
        (k ≠ 0 → b.values.getD k 0 ≠ 0) := by
  intro i
  induction i with
  | zero =>
    intro size _
    exact ⟨0, le_refl 0, by simp [normalize_loop], fun j h1 h2 => by omega, fun h => absurd rfl h⟩
  | succ i ih =>
    intro size hi
    by_cases hv : b.values.getD (i + 1) 0 = 0
    · obtain ⟨k, hk, hloop, hz, hnz⟩ := ih (size - 1) (by omega)
      refine ⟨k, by omega, ?_, ?_, hnz⟩
      · rw [normalize_loop, rd_of_lt b (i + 1) hi]
        simp only [hv, if_true]
        rw [hloop]
        congr 2
        omega
      · intro j hj1 hj2
        by_cases hj : j = i + 1
        · rw [hj]; exact hv
        · exact hz j hj1 (by omega)
    · refine ⟨i + 1, le_refl _, ?_, fun j h1 h2 => by omega, fun _ => hv⟩
      rw [normalize_loop, rd_of_lt b (i + 1) hi]
      simp only [hv, if_false, Nat.sub_self, Nat.sub_zero]

/-- The result of `Scm_NormalizeBignum` on a buffer with at least one word, in
terms of the index `k` of its highest non-zero word (`k = 0` if there is none
above word 0). -/
theorem normalize_cases (W : Nat) (SMIN SMAX : Int) (b : ScmBignum)
    (hsize : 1 ≤ b.size) (halloc : b.size ≤ b.values.length) :
    ∃ k, k < b.size ∧ (∀ j, k < j → j < b.size → b.values.getD j 0 = 0) ∧
      (k ≠ 0 → b.values.getD k 0 ≠ 0) ∧
      Scm_NormalizeBignum W SMIN SMAX b =
        if k = 0 then
          if b.sign = 0 then some (ScmObj.int 0)
          else if b.sign > 0 ∧ b.values.getD 0 0 ≤ toULong W SMAX then
            some (ScmObj.int (toSLong W (b.values.getD 0 0)))
          else if b.sign < 0 ∧ b.values.getD 0 0 ≤ toULong W (wrapLong W (-SMIN)) then
            some (ScmObj.int (toSLong W (toULong W (-((b.values.getD 0 0 : Nat) : Int)))))
          else some (ScmObj.bignum { b with size := 1 })
        else some (ScmObj.bignum { b with size := k + 1 }) := by
  obtain ⟨sign, size, values⟩ := b
  cases size with
  | zero => exact absurd hsize (Nat.not_succ_le_zero 0)
  | succ n =>
    simp only at halloc
    obtain ⟨k, hk, hloop, hz, hnz⟩ :=
      normalize_loop_spec ⟨sign, n + 1, values⟩ n (n + 1) (by simpa using halloc)
    refine ⟨k, by simp only; omega, fun j h1 h2 => hz j h1 (by simp only at h2; omega), hnz, ?_⟩
    have hsz : n + 1 - (n - k) = k + 1 := by omega
    have hrd : rd ⟨sign, n + 1, values⟩ 0 = some (values.getD 0 0) :=
      rd_of_lt _ 0 (by simp only; omega)
    simp only [Scm_NormalizeBignum, hloop, hsz, hrd, SCM_MAKE_INT]
    by_cases hk0 : k = 0
    · subst hk0
      simp only [if_true, Nat.zero_add]
    · simp only [hk0, if_false]

theorem two_pow_half_int (W : Nat) (hW : 0 < W) : (2 : Int) ^ W = 2 * (2 : Int) ^ (W - 1) := by
  have h := two_pow_half W hW
  have h2 : ((2 ^ W : Nat) : Int) = ((2 * 2 ^ (W - 1) : Nat) : Int) := by rw [← h]
  push_cast at h2
  exact h2

theorem toULong_of_neg (W : Nat) (z : Int) (h0 : z < 0) (h : -(2 : Int) ^ W ≤ z) :
    ((toULong W z : Nat) : Int) = z + (2 : Int) ^ W := by
  rw [toULong_cast, ← Int.add_emod_self, Int.emod_eq_of_lt (by omega) (by omega)]

/-- A value inside the range of a `long` is not changed by wrapping. -/
theorem wrapLong_of_range (W : Nat) (hW : 0 < W) (z : Int)
    (h1 : -(2 : Int) ^ (W - 1) ≤ z) (h2 : z < (2 : Int) ^ (W - 1)) : wrapLong W z = z := by
  have hB := two_pow_half_int W hW
  have hP : (0 : Int) < (2 : Int) ^ (W - 1) := by positivity
  have hPc := two_pow_cast (W - 1)
  have hBc := two_pow_cast W
  unfold wrapLong
  by_cases hz : 0 ≤ z
  · have hn := toULong_of_nonneg_lt W z hz (by omega)
    rw [toSLong_of_lt_half W _ (by omega)]
    exact hn
  · have hn := toULong_of_neg W z (by omega) (by omega)
    rw [toSLong_of_ge_half W _ (by omega) (toULong_lt W z)]
    omega

theorem toULong_toSLong (W : Nat) (n : Nat) : toULong W (toSLong W n) = n % 2 ^ W := by
  have hlt : n % 2 ^ W < 2 ^ W := Nat.mod_lt _ (by positivity)
  unfold toSLong
  split
  · rw [toULong_natCast, Nat.mod_mod]
  · have h : ((toULong W (((n % 2 ^ W : Nat) : Int) - (2 : Int) ^ W) : Nat) : Int)
        = ((n % 2 ^ W : Nat) : Int) := by
      rw [toULong_cast,
        show ((n % 2 ^ W : Nat) : Int) - (2 : Int) ^ W
          = ((n % 2 ^ W : Nat) : Int) + (2 : Int) ^ W * (-1) by ring,
        Int.add_mul_emod_self_left]
      rw [two_pow_cast, ← Int.natCast_mod, Nat.mod_mod]
    exact_mod_cast h

theorem toULong_wrapLong (W : Nat) (z : Int) : toULong W (wrapLong W z) = toULong W z := by
  unfold wrapLong
  rw [toULong_toSLong, Nat.mod_eq_of_lt (toULong_lt W z)]

/-- C7. For a builder buffer with at least one word and sign `+1` or `-1`,
`Scm_NormalizeBignum` returns a native integer exactly when the value of the
buffer lies in `[SCM_SMALL_INT_MIN, SCM_SMALL_INT_MAX]`; in both outcomes the
result denotes the value of the buffer, and a buffer whose words are all zero
gives the native integer 0. -/
theorem Scm_NormalizeBignum_denotes (W : Nat) (SMIN SMAX : Int) (b : ScmBignum)
    (hr : SmallRange W SMIN SMAX) (hsize : 1 ≤ b.size) (hwf : WellFormed W b)
    (hsign : b.sign = 1 ∨ b.sign = -1) :
    ∃ r, Scm_NormalizeBignum W SMIN SMAX b = some r ∧
      ((∃ v, r = ScmObj.int v) ↔ (SMIN ≤ value W b ∧ value W b ≤ SMAX)) ∧
      denote W r = value W b ∧
      ((∀ i, i < b.size → b.values.getD i 0 = 0) → r = ScmObj.int 0) := by
  obtain ⟨hW, hmin0, hmax0, hmin, hmax⟩ := hr
  obtain ⟨halloc, hwords⟩ := hwf
  obtain ⟨k, hk, hz, hnz, hres⟩ := normalize_cases W SMIN SMAX b hsize halloc
  have hB := two_pow_half_int W hW
  have hP : (0 : Int) < (2 : Int) ^ (W - 1) := by positivity
  have hPc := two_pow_cast (W - 1)
  have hBc := two_pow_cast W
  have hv0 := getD_lt_of_mem W b.values hwords 0
  have hmaxu : ((toULong W SMAX : Nat) : Int) = SMAX :=
    toULong_of_nonneg_lt W SMAX hmax0 (by omega)
  have hminu : ((toULong W (wrapLong W (-SMIN)) : Nat) : Int) = -SMIN := by
    rw [toULong_wrapLong]
    exact toULong_of_nonneg_lt W (-SMIN) (by omega) (by omega)
  have hm : magnitude W b.values b.size = magnitude W b.values (k + 1) := by
    have h := magnitude_strip W b.values (k + 1) (b.size - (k + 1))
      (fun j h1 h2 => hz j (by omega) (by omega))
    rw [← h]; congr 1; omega
  -- the last conjunct follows from the first three
  suffices hmain : ∃ r, Scm_NormalizeBignum W SMIN SMAX b = some r ∧
      ((∃ v, r = ScmObj.int v) ↔ (SMIN ≤ value W b ∧ value W b ≤ SMAX)) ∧
      denote W r = value W b by
    obtain ⟨r, h1, h2, h3⟩ := hmain
    refine ⟨r, h1, h2, h3, ?_⟩
    intro hall
    have hzero : magnitude W b.values b.size = 0 := by
      have h := magnitude_strip W b.values 0 b.size (fun j _ h2 => hall j (by omega))
      rw [Nat.zero_add, magnitude_zero] at h
      exact h
    have hval : value W b = 0 := by simp [value, hzero]
    obtain ⟨v, hv⟩ := h2.mpr (by rw [hval]; exact ⟨hmin0, hmax0⟩)
    rw [hv, denote, hval] at h3
    rw [hv, h3]
  by_cases hk0 : k = 0
  · -- a single word remains
    subst hk0
    rw [Nat.zero_add, magnitude_one] at hm
    have hval : value W b = b.sign * ((b.values.getD 0 0 : Nat) : Int) := by
      rw [value, hm]
    rw [if_pos rfl] at hres
    rcases hsign with hs | hs
    · have hs0 : ¬ b.sign = 0 := by rw [hs]; decide
      have hspos : b.sign > 0 := by rw [hs]; decide
      have hsneg : ¬ b.sign < 0 := by rw [hs]; decide
      rw [hs, one_mul] at hval
      by_cases hc : b.values.getD 0 0 ≤ toULong W SMAX
      · rw [if_neg hs0, if_pos ⟨hspos, hc⟩] at hres
        have hc2 : ((b.values.getD 0 0 : Nat) : Int) ≤ SMAX := by
          rw [← hmaxu]; exact_mod_cast hc
        have hts : toSLong W (b.values.getD 0 0) = ((b.values.getD 0 0 : Nat) : Int) :=
          toSLong_of_lt_half W _ (by omega)
        refine ⟨_, hres, ?_, ?_⟩
        · constructor
          · intro _; rw [hval]; omega
          · intro _; exact ⟨_, rfl⟩
        · rw [denote, hts, hval]
      · rw [if_neg hs0, if_neg (fun h => hc h.2), if_neg (fun h => hsneg h.1)] at hres
        have hc2 : ¬ ((b.values.getD 0 0 : Nat) : Int) ≤ SMAX := by
          rw [← hmaxu]; exact_mod_cast hc
        refine ⟨_, hres, ?_, ?_⟩
        · constructor
          · rintro ⟨v, hv⟩; exact ScmObj.noConfusion hv
          · intro h; rw [hval] at h; exact absurd h.2 hc2
        · simp only [denote, value, magnitude_one, hs, one_mul]
          rw [hm]
    · have hs0 : ¬ b.sign = 0 := by rw [hs]; decide
      have hspos : ¬ b.sign > 0 := by rw [hs]; decide
      have hsneg : b.sign < 0 := by rw [hs]; decide
      rw [hs] at hval
      by_cases hc : b.values.getD 0 0 ≤ toULong W (wrapLong W (-SMIN))
      · rw [if_neg hs0, if_neg (fun h => hspos h.1), if_pos ⟨hsneg, hc⟩] at hres
        have hc2 : ((b.values.getD 0 0 : Nat) : Int) ≤ -SMIN := by
          rw [← hminu]; exact_mod_cast hc
        have hts : toSLong W (toULong W (-((b.values.getD 0 0 : Nat) : Int)))
            = -((b.values.getD 0 0 : Nat) : Int) := by
          by_cases htop : ((b.values.getD 0 0 : Nat) : Int) = (2 : Int) ^ (W - 1)
          · have hu := toULong_of_neg W (-((b.values.getD 0 0 : Nat) : Int))
              (by omega) (by omega)
            rw [toSLong_of_ge_half W _ (by omega) (toULong_lt W _)]
            omega
          · exact wrapLong_of_range W hW _ (by omega) (by omega)
        refine ⟨_, hres, ?_, ?_⟩
        · constructor
          · intro _; rw [hval]; omega
          · intro _; exact ⟨_, rfl⟩
        · rw [denote, hts, hval]; ring
      · rw [if_neg hs0, if_neg (fun h => hspos h.1), if_neg (fun h => hc h.2)] at hres
        have hc2 : ¬ ((b.values.getD 0 0 : Nat) : Int) ≤ -SMIN := by
          rw [← hminu]; exact_mod_cast hc
        refine ⟨_, hres, ?_, ?_⟩
        · constructor
          · rintro ⟨v, hv⟩; exact ScmObj.noConfusion hv
          · intro h; rw [hval] at h; omega
        · simp only [denote, value, magnitude_one, hs]
          rw [hm]
  · -- more than one word remains: the magnitude is at least 2^W
    rw [if_neg hk0] at hres
    have htop := hnz hk0
    have hge : 2 ^ W ≤ magnitude W b.values b.size := by
      rw [hm]
      refine le_trans ?_ (magnitude_ge_top W b.values k)
      have h1 : 2 ^ W ≤ 2 ^ (W * k) :=
        Nat.pow_le_pow_right (by decide) (Nat.le_mul_of_pos_right W (by omega))
      calc 2 ^ W ≤ 2 ^ (W * k) := h1
        _ = 1 * 2 ^ (W * k) := (Nat.one_mul _).symm
        _ ≤ b.values.getD k 0 * 2 ^ (W * k) := Nat.mul_le_mul_right _ (by omega)
    have hgeI : (2 : Int) ^ W ≤ ((magnitude W b.values b.size : Nat) : Int) := by
      rw [hBc]; exact_mod_cast hge
    refine ⟨_, hres, ?_, ?_⟩
    · constructor
      · rintro ⟨v, hv⟩; exact ScmObj.noConfusion hv
      · intro h
        rcases hsign with hs | hs
        · rw [value, hs, one_mul] at h; omega
        · rw [value, hs] at h; omega
    · simp only [denote, value]
      rw [hm]

theorem Scm_NormalizeBignum_denotes_witness :
    SmallRange 32 (-2 ^ 29) (2 ^ 29 - 1) ∧ 1 ≤ (ScmBignum.mk (-1) 3 [2 ^ 29, 0, 0]).size ∧
      WellFormed 32 (ScmBignum.mk (-1) 3 [2 ^ 29, 0, 0]) ∧
      ∃ r, Scm_NormalizeBignum 32 (-2 ^ 29) (2 ^ 29 - 1) (ScmBignum.mk (-1) 3 [2 ^ 29, 0, 0])
          = some r ∧
        ((∃ v, r = ScmObj.int v) ↔
          ((-2 ^ 29 : Int) ≤ value 32 (ScmBignum.mk (-1) 3 [2 ^ 29, 0, 0]) ∧
            value 32 (ScmBignum.mk (-1) 3 [2 ^ 29, 0, 0]) ≤ 2 ^ 29 - 1)) ∧
        denote 32 r = value 32 (ScmBignum.mk (-1) 3 [2 ^ 29, 0, 0]) ∧
        ((∀ i, i < (ScmBignum.mk (-1) 3 [2 ^ 29, 0, 0]).size →
          (ScmBignum.mk (-1) 3 [2 ^ 29, 0, 0]).values.getD i 0 = 0) → r = ScmObj.int 0) :=
  ⟨by decide, by decide, by decide,
    Scm_NormalizeBignum_denotes 32 (-2 ^ 29) (2 ^ 29 - 1) (ScmBignum.mk (-1) 3 [2 ^ 29, 0, 0])
      (by decide) (by decide) (by decide) (Or.inr rfl)⟩

/-- C8, as stated, fails: a two-word buffer with sign 0 and a non-zero top word
is returned as a bignum whose sign is 0. -/
theorem Scm_NormalizeBignum_sign_zero_retained :
    1 ≤ (ScmBignum.mk 0 2 [0, 1]).size ∧ WellFormed 32 (ScmBignum.mk 0 2 [0, 1]) ∧
      Scm_NormalizeBignum 32 (-2 ^ 29) (2 ^ 29 - 1) (ScmBignum.mk 0 2 [0, 1])
        = some (ScmObj.bignum (ScmBignum.mk 0 2 [0, 1])) ∧
      (ScmBignum.mk 0 2 [0, 1]).sign = 0 := by
  decide

/-- C8, amended. For a builder buffer with at least one word and a non-zero
sign, `Scm_NormalizeBignum` returns, and whenever it returns a bignum that
bignum has at least one word, a non-zero most significant word and a non-zero
sign. -/
theorem Scm_NormalizeBignum_invariant (W : Nat) (SMIN SMAX : Int) (b : ScmBignum)
    (hsize : 1 ≤ b.size) (halloc : b.size ≤ b.values.length) (hsign : b.sign ≠ 0) :
    ∃ r, Scm_NormalizeBignum W SMIN SMAX b = some r ∧
      ∀ c, r = ScmObj.bignum c →
        1 ≤ c.size ∧ c.values.getD (c.size - 1) 0 ≠ 0 ∧ c.sign ≠ 0 := by
  obtain ⟨k, hk, hz, hnz, hres⟩ := normalize_cases W SMIN SMAX b hsize halloc
  by_cases hk0 : k = 0
  · subst hk0
    rw [if_pos rfl, if_neg hsign] at hres
    by_cases h1 : b.sign > 0 ∧ b.values.getD 0 0 ≤ toULong W SMAX
    · rw [if_pos h1] at hres
      exact ⟨_, hres, fun c hc => ScmObj.noConfusion hc⟩
    · rw [if_neg h1] at hres
      by_cases h2 : b.sign < 0 ∧ b.values.getD 0 0 ≤ toULong W (wrapLong W (-SMIN))
      · rw [if_pos h2] at hres
        exact ⟨_, hres, fun c hc => ScmObj.noConfusion hc⟩
      · rw [if_neg h2] at hres
        refine ⟨_, hres, ?_⟩
        intro c hc
        have hc2 : c = { b with size := 1 } := (ScmObj.bignum.inj hc).symm
        subst hc2
        refine ⟨le_refl 1, ?_, hsign⟩
        intro hv0
        simp only [Nat.sub_self] at hv0
        rcases lt_or_gt_of_ne hsign with hneg | hpos
        · exact h2 ⟨hneg, by rw [hv0]; exact Nat.zero_le _⟩
        · exact h1 ⟨hpos, by rw [hv0]; exact Nat.zero_le _⟩
  · rw [if_neg hk0] at hres
    refine ⟨_, hres, ?_⟩
    intro c hc
    have hc2 : c = { b with size := k + 1 } := (ScmObj.bignum.inj hc).symm
    subst hc2
    exact ⟨by simp, by simpa using hnz hk0, hsign⟩

theorem Scm_NormalizeBignum_invariant_witness :
    1 ≤ (ScmBignum.mk 1 3 [7, 5, 0]).size ∧
      (ScmBignum.mk 1 3 [7, 5, 0]).size ≤ (ScmBignum.mk 1 3 [7, 5, 0]).values.length ∧
      (ScmBignum.mk 1 3 [7, 5, 0]).sign ≠ 0 ∧
      ∃ r, Scm_NormalizeBignum 32 (-2 ^ 29) (2 ^ 29 - 1) (ScmBignum.mk 1 3 [7, 5, 0]) = some r ∧
        ∀ c, r = ScmObj.bignum c →
          1 ≤ c.size ∧ c.values.getD (c.size - 1) 0 ≠ 0 ∧ c.sign ≠ 0 :=
  ⟨by decide, by decide, by decide,
    Scm_NormalizeBignum_invariant 32 (-2 ^ 29) (2 ^ 29 - 1) (ScmBignum.mk 1 3 [7, 5, 0])
      (by decide) (by decide) (by decide)⟩

/-! ## Conversion to and from a native word -/

theorem LONG_MAX_eq (W : Nat) : LONG_MAX W = (2 : Int) ^ (W - 1) - 1 := by
  unfold LONG_MAX LONG_MIN; ring

/-- C6. For every native signed word `v`, the most negative one included,
`Scm_BignumToSI(Scm_MakeBignumFromSI(v))` is `v`. -/
theorem Scm_BignumToSI_MakeBignumFromSI (W : Nat) (junk : Junk) (v : Int) (hW : 0 < W)
    (hlo : LONG_MIN W ≤ v) (hhi : v ≤ LONG_MAX W) :
    Scm_BignumToSI W (Scm_MakeBignumFromSI W junk v) = some v := by
  have hB := two_pow_half_int W hW
  have hP : (0 : Int) < (2 : Int) ^ (W - 1) := by positivity
  have hPc := two_pow_cast (W - 1)
  have hBc := two_pow_cast W
  rw [LONG_MAX_eq] at hhi
  by_cases hmin : v = LONG_MIN W
  · simp [Scm_MakeBignumFromSI, hmin, make_bignum, List.range_succ, Scm_BignumToSI, rd]
  · have hlo2 : -(2 : Int) ^ (W - 1) < v := by
      unfold LONG_MIN at hlo hmin; omega
    by_cases hneg : v < 0
    · have hw : wrapLong W (-v) = -v := wrapLong_of_range W hW _ (by omega) (by omega)
      have hu : ((toULong W (-v) : Nat) : Int) = -v :=
        toULong_of_nonneg_lt W (-v) (by omega) (by omega)
      have hne : toULong W (-v) ≠ 0 := by
        intro h0; rw [h0] at hu; simp at hu; omega
      have hts : toSLong W (toULong W (-v)) = -v := by
        rw [toSLong_of_lt_half W _ (by omega)]; exact hu
      have hw2 : wrapLong W v = v := wrapLong_of_range W hW _ (by omega) (by omega)
      simp [Scm_MakeBignumFromSI, hmin, hneg, make_bignum, List.range_succ, Scm_BignumToSI, rd,
        hw, hne, hts, hw2]
    · have hu : ((toULong W v : Nat) : Int) = v :=
        toULong_of_nonneg_lt W v (by omega) (by omega)
      have hts : toSLong W (toULong W v) = v := by
        rw [toSLong_of_lt_half W _ (by omega)]; exact hu
      simp [Scm_MakeBignumFromSI, hmin, hneg, make_bignum, List.range_succ, Scm_BignumToSI, rd,
        hts]

theorem Scm_BignumToSI_MakeBignumFromSI_witness :
    0 < 32 ∧ LONG_MIN 32 ≤ LONG_MIN 32 ∧ LONG_MIN 32 ≤ LONG_MAX 32 ∧
      Scm_BignumToSI 32 (Scm_MakeBignumFromSI 32 (Junk.mk 0 (fun _ => 0)) (LONG_MIN 32))
        = some (LONG_MIN 32) :=
  ⟨by decide, by decide, by decide,
    Scm_BignumToSI_MakeBignumFromSI 32 (Junk.mk 0 (fun _ => 0)) (LONG_MIN 32) (by decide)
      (by decide) (by decide)⟩

/-! ## Copy and negation -/

theorem getD_set (c : List Nat) (i j v : Nat) :
    (c.set i v).getD j 0 = if j = i ∧ i < c.length then v else c.getD j 0 := by
  by_cases hji : j = i
  · subst hji
    by_cases hl : j < c.length
    · simp [List.getD_eq_getElem?_getD, hl]
    · rw [List.set_eq_of_length_le (by omega), if_neg (fun h => hl h.2)]
  · have hne : i ≠ j := fun h => hji h.symm
    simp [List.getD_eq_getElem?_getD, List.getElem?_set_ne hne, hji]

theorem with_size_eq (b : ScmBignum) (n : Nat) (h : n = b.size) :
    ({ b with size := n } : ScmBignum) = b := by
  subst h; rfl

theorem wr_of_lt (c : List Nat) (i v : Nat) (h : i < c.length) :
    wr c i v = some (c.set i v) := by
  unfold wr; rw [if_pos h]

/-- The copying loop overwrites the words `i .. i+n-1` of the buffer with the
words of `b` and leaves the other words alone. -/
theorem copy_loop_spec (b : ScmBignum) :
    ∀ (n i : Nat) (c : List Nat), i + n ≤ b.values.length → i + n ≤ c.length →
      ∃ r, copy_loop b n i c = some r ∧ r.length = c.length ∧
        ∀ j, r.getD j 0 = if i ≤ j ∧ j < i + n then b.values.getD j 0 else c.getD j 0 := by
  intro n
  induction n with
  | zero =>
    intro i c _ _
    refine ⟨c, rfl, rfl, fun j => ?_⟩
    rw [if_neg (by omega)]
  | succ n ih =>
    intro i c hb hc
    obtain ⟨r, hr, hlen, hget⟩ := ih (i + 1) (c.set i (b.values.getD i 0))
      (by omega) (by rw [List.length_set]; omega)
    refine ⟨r, ?_, by rw [hlen, List.length_set], fun j => ?_⟩
    · rw [copy_loop, rd_of_lt b i (by omega)]
      simp only [wr_of_lt c i _ (show i < c.length by omega)]
      exact hr
    · rw [hget j, getD_set]
      by_cases h1 : i + 1 ≤ j ∧ j < i + 1 + n
      · rw [if_pos h1, if_pos (by omega)]
      · rw [if_neg h1]
        by_cases h2 : j = i
        · rw [if_pos ⟨h2, by omega⟩, if_pos (by omega), h2]
        · rw [if_neg (fun h => h2 h.1), if_neg (by omega)]

/-- The copy made by `Scm_BignumCopy`: same sign and size, exactly `size` words,
each equal to the corresponding word of the original. -/
theorem Scm_BignumCopy_spec (W : Nat) (junk : Junk) (b : ScmBignum)
    (halloc : b.size ≤ b.values.length) :
    ∃ c, Scm_BignumCopy W junk b = some c ∧ c.sign = b.sign ∧ c.size = b.size ∧
      c.values.length = b.size ∧ ∀ j, j < b.size → c.values.getD j 0 = b.values.getD j 0 := by
  have hlen : (make_bignum W junk b.size).values.length = b.size := by
    simp [make_bignum]
  obtain ⟨r, hr, hrl, hget⟩ := copy_loop_spec b b.size 0 (make_bignum W junk b.size).values
    (by omega) (by omega)
  refine ⟨{ make_bignum W junk b.size with sign := b.sign, values := r }, ?_, rfl, rfl, ?_, ?_⟩
  · simp only [Scm_BignumCopy, hr]
  · simp only; rw [hrl, hlen]
  · intro j hj
    simp only
    rw [hget j, if_pos (by omega)]

theorem magnitude_congr (W : Nat) (vs us : List Nat) :
    ∀ n : Nat, (∀ j, j < n → vs.getD j 0 = us.getD j 0) →
      magnitude W vs n = magnitude W us n := by
  intro n
  induction n with
  | zero => intro _; rw [magnitude_zero, magnitude_zero]
  | succ n ih =>
    intro h
    rw [magnitude_succ, magnitude_succ, ih (fun j hj => h j (by omega)), h n (by omega)]

/-- A buffer whose most significant word is non-zero is returned unchanged when
`Scm_NormalizeBignum` keeps it as a bignum. -/
theorem normalize_top_nonzero (W : Nat) (SMIN SMAX : Int) (b : ScmBignum)
    (hsize : 1 ≤ b.size) (halloc : b.size ≤ b.values.length)
    (htop : b.values.getD (b.size - 1) 0 ≠ 0) :
    ∃ r, Scm_NormalizeBignum W SMIN SMAX b = some r ∧ ∀ c, r = ScmObj.bignum c → c = b := by
  obtain ⟨k, hk, hz, hnz, hres⟩ := normalize_cases W SMIN SMAX b hsize halloc
  have hk1 : k + 1 = b.size := by
    by_contra hne
    exact htop (hz (b.size - 1) (by omega) (by omega))
  have hb : ({ b with size := k + 1 } : ScmBignum) = b := with_size_eq b _ hk1
  by_cases hk0 : k = 0
  · have hb1 : ({ b with size := 1 } : ScmBignum) = b := with_size_eq b _ (by omega)
    rw [if_pos hk0, hb1] at hres
    by_cases hs0 : b.sign = 0
    · rw [if_pos hs0] at hres
      exact ⟨_, hres, fun c hc => ScmObj.noConfusion hc⟩
    · rw [if_neg hs0] at hres
      by_cases h1 : b.sign > 0 ∧ b.values.getD 0 0 ≤ toULong W SMAX
      · rw [if_pos h1] at hres
        exact ⟨_, hres, fun c hc => ScmObj.noConfusion hc⟩
      · rw [if_neg h1] at hres
        by_cases h2 : b.sign < 0 ∧ b.values.getD 0 0 ≤ toULong W (wrapLong W (-SMIN))
        · rw [if_pos h2] at hres
          exact ⟨_, hres, fun c hc => ScmObj.noConfusion hc⟩
        · rw [if_neg h2] at hres
          exact ⟨_, hres, fun c hc => (ScmObj.bignum.inj hc).symm⟩
  · rw [if_neg hk0, hb] at hres
    exact ⟨_, hres, fun c hc => (ScmObj.bignum.inj hc).symm⟩

/-- A bignum that satisfies the invariants of a normalized bignum is kept as it
is by `Scm_NormalizeBignum`. -/
theorem normalize_retained (W : Nat) (SMIN SMAX : Int) (b : ScmBignum)
    (hr : SmallRange W SMIN SMAX) (hsize : 1 ≤ b.size) (halloc : b.size ≤ b.values.length)
    (htop : b.values.getD (b.size - 1) 0 ≠ 0) (hsign : b.sign = 1 ∨ b.sign = -1)
    (hout : ¬ (SMIN ≤ value W b ∧ value W b ≤ SMAX)) :
    Scm_NormalizeBignum W SMIN SMAX b = some (ScmObj.bignum b) := by
  obtain ⟨hW, hmin0, hmax0, hmin, hmax⟩ := hr
  obtain ⟨k, hk, hz, hnz, hres⟩ := normalize_cases W SMIN SMAX b hsize halloc
  have hB := two_pow_half_int W hW
  have hP : (0 : Int) < (2 : Int) ^ (W - 1) := by positivity
  have hk1 : k + 1 = b.size := by
    by_contra hne
    exact htop (hz (b.size - 1) (by omega) (by omega))
  have hb : ({ b with size := k + 1 } : ScmBignum) = b := with_size_eq b _ hk1
  by_cases hk0 : k = 0
  · subst hk0
    have hmaxu : ((toULong W SMAX : Nat) : Int) = SMAX :=
      toULong_of_nonneg_lt W SMAX hmax0 (by omega)
    have hminu : ((toULong W (wrapLong W (-SMIN)) : Nat) : Int) = -SMIN := by
      rw [toULong_wrapLong]
      exact toULong_of_nonneg_lt W (-SMIN) (by omega) (by omega)
    have hval : value W b = b.sign * ((b.values.getD 0 0 : Nat) : Int) := by
      rw [value, ← hk1, Nat.zero_add, magnitude_one]
    have hs0 : ¬ b.sign = 0 := by rcases hsign with hs | hs <;> rw [hs] <;> decide
    have hc1 : ¬ (b.sign > 0 ∧ b.values.getD 0 0 ≤ toULong W SMAX) := by
      rintro ⟨hpos, hle⟩
      have hs : b.sign = 1 := by rcases hsign with hs | hs <;> omega
      have hle2 : ((b.values.getD 0 0 : Nat) : Int) ≤ SMAX := by
        rw [← hmaxu]; exact_mod_cast hle
      apply hout
      rw [hval, hs]; omega
    have hc2 : ¬ (b.sign < 0 ∧ b.values.getD 0 0 ≤ toULong W (wrapLong W (-SMIN))) := by
      rintro ⟨hneg, hle⟩
      have hs : b.sign = -1 := by rcases hsign with hs | hs <;> omega
      have hle2 : ((b.values.getD 0 0 : Nat) : Int) ≤ -SMIN := by
        rw [← hminu]; exact_mod_cast hle
      apply hout
      rw [hval, hs]; omega
    rw [if_pos rfl, if_neg hs0, if_neg hc1, if_neg hc2] at hres
    rw [hres]
    rw [Nat.zero_add] at hb
    rw [hb]
  · rw [if_neg hk0, hb] at hres
    exact hres

/-- What `Scm_BignumNegate` does on the heap, for an argument with a non-zero
most significant word: it allocates one object `c`, a copy of the argument with
the sign flipped, leaves every older object as it was, and returns either a
native integer or the pointer to `c`. -/
theorem negate_heap_spec (W : Nat) (SMIN SMAX : Int) (junk : Junk) (h : Heap) (p : Nat)
    (b : ScmBignum) (hb : h[p]? = some b) (hsize : 1 ≤ b.size)
    (halloc : b.size ≤ b.values.length) (htop : b.values.getD (b.size - 1) 0 ≠ 0) :
    ∃ h1 r c, Scm_BignumNegate_heap W SMIN SMAX junk h p = some (h1, r) ∧
      h1.length = h.length + 1 ∧ (∀ i, i < h.length → h1[i]? = h[i]?) ∧
      c.sign = -b.sign ∧ c.size = b.size ∧ c.values.length = b.size ∧
      (∀ j, j < b.size → c.values.getD j 0 = b.values.getD j 0) ∧
      ((∃ v, r = ScmRef.int v ∧ Scm_NormalizeBignum W SMIN SMAX c = some (ScmObj.int v)) ∨
        (r = ScmRef.ptr h.length ∧ h1[h.length]? = some c ∧
          Scm_NormalizeBignum W SMIN SMAX c = some (ScmObj.bignum c))) := by
  obtain ⟨c0, hc0, hs0, hz0, hl0, hw0⟩ := Scm_BignumCopy_spec W junk b halloc
  have hget : (h ++ [c0])[h.length]? = some c0 := by simp
  have hget2 : ((h ++ [c0]).set h.length { c0 with sign := -c0.sign })[h.length]?
      = some { c0 with sign := -c0.sign } := by simp
  have hold : ∀ (x : ScmBignum) (i : Nat), i < h.length →
      ((h ++ [c0]).set h.length x)[i]? = h[i]? := by
    intro x i hi
    rw [List.getElem?_set_ne (by omega), List.getElem?_append_left hi]
  have htop1 : ({ c0 with sign := -c0.sign } : ScmBignum).values.getD
      (({ c0 with sign := -c0.sign } : ScmBignum).size - 1) 0 ≠ 0 := by
    simp only
    rw [hz0, hw0 _ (by omega)]
    exact htop
  obtain ⟨r0, hr0, hsame⟩ := normalize_top_nonzero W SMIN SMAX { c0 with sign := -c0.sign }
    (by simp only; omega) (by simp only; omega) htop1
  cases r0 with
  | int v =>
    refine ⟨(h ++ [c0]).set h.length { c0 with sign := -c0.sign }, ScmRef.int v,
      { c0 with sign := -c0.sign }, ?_, by simp, fun i hi => hold _ i hi, by simp only [hs0],
      hz0, hl0, hw0, Or.inl ⟨v, rfl, hr0⟩⟩
    simp only [Scm_BignumNegate_heap, Scm_BignumCopy_heap, hb, hc0, hget,
      Scm_NormalizeBignum_heap, hget2, hr0]
  | bignum c2 =>
    have hc2 := hsame c2 rfl
    subst hc2
    refine ⟨((h ++ [c0]).set h.length { c0 with sign := -c0.sign }).set h.length
        { c0 with sign := -c0.sign }, ScmRef.ptr h.length,
      { c0 with sign := -c0.sign }, ?_, by simp, ?_, by simp only [hs0],
      hz0, hl0, hw0, Or.inr ⟨rfl, by simp, hr0⟩⟩
    · simp only [Scm_BignumNegate_heap, Scm_BignumCopy_heap, hb, hc0, hget,
        Scm_NormalizeBignum_heap, hget2, hr0]
    · intro i hi
      rw [List.getElem?_set_ne (by omega)]
      exact hold _ i hi

/-- C10. On the heap, for a normalized bignum `a` at pointer `p`:
`Scm_BignumNegate` returns and leaves the object at `p` unchanged (it works on a
copy); and when its result is again a bignum, negating that result returns a
bignum with the same sign, size and words as `a`, with `a` still unchanged. -/
theorem Scm_BignumNegate_involution (W : Nat) (SMIN SMAX : Int) (junk junk2 : Junk)
    (h : Heap) (p : Nat) (a : ScmBignum) (hr : SmallRange W SMIN SMAX)
    (ha : h[p]? = some a) (hn : Normalized W SMIN SMAX a) :
    ∃ h1 r, Scm_BignumNegate_heap W SMIN SMAX junk h p = some (h1, r) ∧ h1[p]? = some a ∧
      ∀ q, r = ScmRef.ptr q →
        ∃ h2 q2 c, Scm_BignumNegate_heap W SMIN SMAX junk2 h1 q = some (h2, ScmRef.ptr q2) ∧
          h2[q2]? = some c ∧ c.sign = a.sign ∧ c.size = a.size ∧
          (∀ i, i < a.size → c.values.getD i 0 = a.values.getD i 0) ∧
          h2[p]? = some a := by
  obtain ⟨⟨halloc, _⟩, hsize, htop, hsign, hout⟩ := hn
  have hp : p < h.length := by
    by_contra hc
    rw [List.getElem?_eq_none (by omega)] at ha
    exact Option.noConfusion ha
  obtain ⟨h1, r, c, hneg, hlen1, hold1, hcs, hcz, hcl, hcw, hcase⟩ :=
    negate_heap_spec W SMIN SMAX junk h p a ha hsize halloc htop
  refine ⟨h1, r, hneg, by rw [hold1 p hp]; exact ha, ?_⟩
  intro q hq
  rcases hcase with ⟨v, hv, _⟩ | ⟨hrq, hcq, _⟩
  · rw [hv] at hq; exact ScmRef.noConfusion hq
  · have hqe : q = h.length := by
      rw [hrq] at hq; exact (ScmRef.ptr.inj hq).symm
    subst hqe
    have htopc : c.values.getD (c.size - 1) 0 ≠ 0 := by
      rw [hcz, hcw _ (by omega)]; exact htop
    obtain ⟨h2, r2, c2, hneg2, hlen2, hold2, hcs2, hcz2, hcl2, hcw2, hcase2⟩ :=
      negate_heap_spec W SMIN SMAX junk2 h1 h.length c hcq (by omega) (by omega) htopc
    have hsg : c2.sign = a.sign := by rw [hcs2, hcs]; ring
    have hsz : c2.size = a.size := by rw [hcz2, hcz]
    have hwd : ∀ i, i < a.size → c2.values.getD i 0 = a.values.getD i 0 := by
      intro i hi
      rw [hcw2 i (by omega), hcw i hi]
    have hval : value W c2 = value W a := by
      rw [value, value, hsg, hsz, magnitude_congr W c2.values a.values a.size hwd]
    have hkeep : Scm_NormalizeBignum W SMIN SMAX c2 = some (ScmObj.bignum c2) :=
      normalize_retained W SMIN SMAX c2 hr (by omega) (by omega)
        (by rw [hsz, hwd _ (by omega)]; exact htop) (by rw [hsg]; exact hsign)
        (by rw [hval]; exact hout)
    rcases hcase2 with ⟨v, _, hv2⟩ | ⟨hr2, hc2q, _⟩
    · rw [hkeep] at hv2
      exact ScmObj.noConfusion (Option.some.inj hv2)
    · refine ⟨h2, h1.length, c2, by rw [hneg2, hr2], hc2q, hsg, hsz, hwd, ?_⟩
      rw [hold2 p (by omega), hold1 p hp]
      exact ha

theorem Scm_BignumNegate_involution_witness :
    SmallRange 32 (-2 ^ 29) (2 ^ 29 - 1) ∧
      ([ScmBignum.mk 1 2 [5, 7]] : Heap)[0]? = some (ScmBignum.mk 1 2 [5, 7]) ∧
      Normalized 32 (-2 ^ 29) (2 ^ 29 - 1) (ScmBignum.mk 1 2 [5, 7]) ∧
      ∃ h1 r, Scm_BignumNegate_heap 32 (-2 ^ 29) (2 ^ 29 - 1) (Junk.mk 0 (fun _ => 0))
          [ScmBignum.mk 1 2 [5, 7]] 0 = some (h1, r) ∧
        h1[0]? = some (ScmBignum.mk 1 2 [5, 7]) ∧
        ∀ q, r = ScmRef.ptr q →
          ∃ h2 q2 c, Scm_BignumNegate_heap 32 (-2 ^ 29) (2 ^ 29 - 1) (Junk.mk 3 (fun _ => 9))
              h1 q = some (h2, ScmRef.ptr q2) ∧
            h2[q2]? = some c ∧ c.sign = (ScmBignum.mk 1 2 [5, 7]).sign ∧
            c.size = (ScmBignum.mk 1 2 [5, 7]).size ∧
            (∀ i, i < (ScmBignum.mk 1 2 [5, 7]).size →
              c.values.getD i 0 = (ScmBignum.mk 1 2 [5, 7]).values.getD i 0) ∧
            h2[0]? = some (ScmBignum.mk 1 2 [5, 7]) :=
  ⟨by decide, by decide, by decide,
    Scm_BignumNegate_involution 32 (-2 ^ 29) (2 ^ 29 - 1) (Junk.mk 0 (fun _ => 0))
      (Junk.mk 3 (fun _ => 9)) [ScmBignum.mk 1 2 [5, 7]] 0 (ScmBignum.mk 1 2 [5, 7])
      (by decide) (by decide) (by decide)⟩

/-! ## Fresh buffers

The loops of `bignum_add_int` and `bignum_sub_int` write every word of the
result buffer, so what the allocator left in it does not matter. -/

theorem agree_set (r r' : List Nat) (i v : Nat) (hlen : r.length = r'.length)
    (hagree : ∀ j, j < i → r.getD j 0 = r'.getD j 0) :
    ∀ j, j < i + 1 → (r.set i v).getD j 0 = (r'.set i v).getD j 0 := by
  intro j hj
  rw [getD_set, getD_set, hlen]
  by_cases h : j = i ∧ i < r'.length
  · rw [if_pos h, if_pos h]
  · rw [if_neg h, if_neg h]
    by_cases hji : j = i
    · have hge : ¬ i < r'.length := fun hl => h ⟨hji, hl⟩
      rw [List.getD_eq_default _ _ (by omega), List.getD_eq_default _ _ (by omega)]
    · exact hagree j (by omega)

theorem eq_of_agree (r r' : List Nat) (hlen : r.length = r'.length)
    (hagree : ∀ j, j < r.length → r.getD j 0 = r'.getD j 0) : r = r' := by
  apply List.ext_getElem hlen
  intro j h1 h2
  have h := hagree j h1
  rw [List.getD_eq_getElem _ _ h1, List.getD_eq_getElem _ _ h2] at h
  exact h

theorem add_int_loop_fresh (W : Nat) (bx y : ScmBignum) :
    ∀ (n i : Nat) (xs ys c : Int) (r r' : List Nat), r.length = r'.length →
      (∀ j, j < i → r.getD j 0 = r'.getD j 0) → i + n = r.length →
      add_int_loop W bx y n i xs ys c r = add_int_loop W bx y n i xs ys c r' := by
  intro n
  induction n with
  | zero =>
    intro i xs ys c r r' hlen hagree hfull
    have : r = r' := eq_of_agree r r' hlen (fun j hj => hagree j (by omega))
    rw [this]
  | succ n ih =>
    intro i xs ys c r r' hlen hagree hfull
    have hw : ∀ v, wr r i v = some (r.set i v) := fun v => wr_of_lt r i v (by omega)
    have hw' : ∀ v, wr r' i v = some (r'.set i v) := fun v => wr_of_lt r' i v (by omega)
    have step : ∀ (v : Nat) (c' : Int),
        add_int_loop W bx y n (i + 1) (xs - 1) (ys - 1) c' (r.set i v)
          = add_int_loop W bx y n (i + 1) (xs - 1) (ys - 1) c' (r'.set i v) :=
      fun v c' => ih (i + 1) (xs - 1) (ys - 1) c' _ _
        (by rw [List.length_set, List.length_set, hlen])
        (agree_set r r' i v hlen hagree) (by rw [List.length_set]; omega)
    simp only [add_int_loop, hw, hw', step]

theorem sub_int_loop_fresh (W : Nat) (bx y : ScmBignum) :
    ∀ (n i : Nat) (xs ys c : Int) (r r' : List Nat), r.length = r'.length →
      (∀ j, j < i → r.getD j 0 = r'.getD j 0) → i + n = r.length →
      sub_int_loop W bx y n i xs ys c r = sub_int_loop W bx y n i xs ys c r' := by
  intro n
  induction n with
  | zero =>
    intro i xs ys c r r' hlen hagree hfull
    have : r = r' := eq_of_agree r r' hlen (fun j hj => hagree j (by omega))
    rw [this]
  | succ n ih =>
    intro i xs ys c r r' hlen hagree hfull
    have hw : ∀ v, wr r i v = some (r.set i v) := fun v => wr_of_lt r i v (by omega)
    have hw' : ∀ v, wr r' i v = some (r'.set i v) := fun v => wr_of_lt r' i v (by omega)
    have step : ∀ (v : Nat) (c' : Int),
        sub_int_loop W bx y n (i + 1) (xs - 1) (ys - 1) c' (r.set i v)
          = sub_int_loop W bx y n (i + 1) (xs - 1) (ys - 1) c' (r'.set i v) :=
      fun v c' => ih (i + 1) (xs - 1) (ys - 1) c' _ _
        (by rw [List.length_set, List.length_set, hlen])
        (agree_set r r' i v hlen hagree) (by rw [List.length_set]; omega)
    simp only [sub_int_loop, hw, hw', step]

theorem make_bignum_length (W : Nat) (junk : Junk) (n : Nat) :
    (make_bignum W junk n).values.length = n := by
  simp [make_bignum]

/-- The result of `bignum_add` does not depend on the content of the fresh
allocation. -/
theorem bignum_add_fresh (W : Nat) (junk junk' : Junk) (bx y : ScmBignum) :
    bignum_add W junk bx y = bignum_add W junk' bx y := by
  unfold bignum_add
  cases bignum_safe_size_for_add W bx y with
  | none => rfl
  | some rsize =>
    have ha := add_int_loop_fresh W bx y rsize 0 bx.size y.size 0
      (make_bignum W junk rsize).values (make_bignum W junk' rsize).values
      (by rw [make_bignum_length, make_bignum_length]) (fun j hj => absurd hj (Nat.not_lt_zero j))
      (by rw [make_bignum_length, Nat.zero_add])
    have hs := sub_int_loop_fresh W bx y rsize 0 bx.size y.size 0
      (make_bignum W junk rsize).values (make_bignum W junk' rsize).values
      (by rw [make_bignum_length, make_bignum_length]) (fun j hj => absurd hj (Nat.not_lt_zero j))
      (by rw [make_bignum_length, Nat.zero_add])
    simp only [bignum_add_int, bignum_sub_int, make_bignum] at ha hs ⊢
    simp only [ha, hs]

/-- The result of `bignum_sub` does not depend on the content of the fresh
allocation. -/
theorem bignum_sub_fresh (W : Nat) (junk junk' : Junk) (bx y : ScmBignum) :
    bignum_sub W junk bx y = bignum_sub W junk' bx y := by
  unfold bignum_sub
  cases bignum_safe_size_for_add W bx y with
  | none => rfl
  | some rsize =>
    have ha := add_int_loop_fresh W bx y rsize 0 bx.size y.size 0
      (make_bignum W junk rsize).values (make_bignum W junk' rsize).values
      (by rw [make_bignum_length, make_bignum_length]) (fun j hj => absurd hj (Nat.not_lt_zero j))
      (by rw [make_bignum_length, Nat.zero_add])
    have hs := sub_int_loop_fresh W bx y rsize 0 bx.size y.size 0
      (make_bignum W junk rsize).values (make_bignum W junk' rsize).values
      (by rw [make_bignum_length, make_bignum_length]) (fun j hj => absurd hj (Nat.not_lt_zero j))
      (by rw [make_bignum_length, Nat.zero_add])
    simp only [bignum_add_int, bignum_sub_int, make_bignum] at ha hs ⊢
    simp only [ha, hs]

theorem Scm_BignumAdd_fresh (W : Nat) (SMIN SMAX : Int) (junk junk' : Junk)
    (bx y : ScmBignum) :
    Scm_BignumAdd W SMIN SMAX junk bx y = Scm_BignumAdd W SMIN SMAX junk' bx y := by
  unfold Scm_BignumAdd
  rw [bignum_add_fresh W junk junk']

theorem Scm_BignumSub_fresh (W : Nat) (SMIN SMAX : Int) (junk junk' : Junk)
    (bx y : ScmBignum) :
    Scm_BignumSub W SMIN SMAX junk bx y = Scm_BignumSub W SMIN SMAX junk' bx y := by
  unfold Scm_BignumSub
  rw [bignum_sub_fresh W junk junk']

/-- The copy made by `Scm_BignumCopy` of a well-allocated bignum, whatever the
content of the fresh allocation. -/
theorem Scm_BignumCopy_eq (W : Nat) (junk : Junk) (b : ScmBignum)
    (halloc : b.size ≤ b.values.length) :
    Scm_BignumCopy W junk b = some ⟨b.sign, b.size, b.values.take b.size⟩ := by
  obtain ⟨c, hc, hs, hz, hl, hw⟩ := Scm_BignumCopy_spec W junk b halloc
  rw [hc]
  obtain ⟨cs, cz, cv⟩ := c
  simp only at hs hz hl hw
  subst hs hz
  have hv : cv = b.values.take b.size := by
    apply eq_of_agree
    · rw [hl, List.length_take]; omega
    · intro j hj
      rw [hw j (by omega)]
      simp only [List.getD_eq_getElem?_getD, List.getElem?_take]
      rw [if_pos (by omega)]
  rw [hv]

/-! ## Evaluations on a 32-bit platform

`W = 32`, `int` of 32 bits, small integers in `[-2^29, 2^29 - 1]`. -/

/-- C1. `Scm_BignumAdd` on a three-word and a one-word normalized bignum: the
result buffer has three words, `ysize` reaches 0 at index 1 and is -1 at index
2, so the loop of `bignum_add_int` reads `by->values[2]`, outside the single
word of the second operand.  No sum is produced. -/
theorem Scm_BignumAdd_reads_outside_operand (junk : Junk) :
    Normalized 32 (-2 ^ 29) (2 ^ 29 - 1) (ScmBignum.mk 1 3 [1, 1, 1]) ∧
      Normalized 32 (-2 ^ 29) (2 ^ 29 - 1) (ScmBignum.mk 1 1 [2 ^ 30]) ∧
      bignum_safe_size_for_add 32 (ScmBignum.mk 1 3 [1, 1, 1]) (ScmBignum.mk 1 1 [2 ^ 30])
        = some 3 ∧
      rd (ScmBignum.mk 1 1 [2 ^ 30]) 2 = none ∧
      Scm_BignumAdd 32 (-2 ^ 29) (2 ^ 29 - 1) junk (ScmBignum.mk 1 3 [1, 1, 1])
        (ScmBignum.mk 1 1 [2 ^ 30]) = none :=
  ⟨by decide, by decide, by decide, by decide, rfl⟩

/-- C2. `Scm_BignumSub` on a three-word and a one-word normalized bignum reads
`by->values[2]` in `bignum_sub_int`, outside the second operand, and produces no
difference; on the one-word operands 10 and 15 it returns the native -5. -/
theorem Scm_BignumSub_reads_outside_operand (junk : Junk) :
    Normalized 32 (-2 ^ 29) (2 ^ 29 - 1) (ScmBignum.mk 1 3 [1, 1, 1]) ∧
      Normalized 32 (-2 ^ 29) (2 ^ 29 - 1) (ScmBignum.mk 1 1 [2 ^ 30]) ∧
      Scm_BignumSub 32 (-2 ^ 29) (2 ^ 29 - 1) junk (ScmBignum.mk 1 3 [1, 1, 1])
        (ScmBignum.mk 1 1 [2 ^ 30]) = none ∧
      Scm_BignumSub 32 (-2 ^ 29) (2 ^ 29 - 1) junk (ScmBignum.mk 1 1 [10])
        (ScmBignum.mk 1 1 [15]) = some (ScmObj.int (-5)) := by
  have h : Scm_BignumSub 32 (-2 ^ 29) (2 ^ 29 - 1) (Junk.mk 0 (fun _ => 0))
      (ScmBignum.mk 1 1 [10]) (ScmBignum.mk 1 1 [15]) = some (ScmObj.int (-5)) := by decide
  exact ⟨by decide, by decide, rfl,
    (Scm_BignumSub_fresh 32 (-2 ^ 29) (2 ^ 29 - 1) junk (Junk.mk 0 (fun _ => 0)) _ _).trans h⟩

/-- C3. Adding 1 to the one-word bignum whose word is all ones: `bignum_add_si`
stores 0 in word 0 and never writes word 1, which keeps the content of the
fresh allocation; with that content zero the result is the native 0, not
`2^32`. -/
theorem Scm_BignumAddSI_drops_carry (junk : Junk) :
    bignum_add_si 32 32 junk (ScmBignum.mk 1 1 [2 ^ 32 - 1]) 1
        = some (ScmBignum.mk 1 2 [0, junk.word 1 % 2 ^ 32]) ∧
      Scm_BignumAddSI 32 32 (-2 ^ 29) (2 ^ 29 - 1) (Junk.mk 0 (fun _ => 0))
        (ScmBignum.mk 1 1 [2 ^ 32 - 1]) 1 = some (ScmObj.int 0) ∧
      value 32 (ScmBignum.mk 1 1 [2 ^ 32 - 1]) + 1 = 2 ^ 32 :=
  ⟨rfl, by decide, by decide⟩

/-- C4. `Scm_BignumToSI` does not clamp: for the two-word positive bignum
`2^32 + 5` it returns 5, and for the one-word negative bignum `-(2^31 + 5)` it
returns the positive `2^31 - 5`. -/
theorem Scm_BignumToSI_not_clamped :
    Normalized 32 (-2 ^ 29) (2 ^ 29 - 1) (ScmBignum.mk 1 2 [5, 1]) ∧
      value 32 (ScmBignum.mk 1 2 [5, 1]) = 2 ^ 32 + 5 ∧
      LONG_MAX 32 = 2 ^ 31 - 1 ∧
      Scm_BignumToSI 32 (ScmBignum.mk 1 2 [5, 1]) = some 5 ∧
      Normalized 32 (-2 ^ 29) (2 ^ 29 - 1) (ScmBignum.mk (-1) 1 [2 ^ 31 + 5]) ∧
      value 32 (ScmBignum.mk (-1) 1 [2 ^ 31 + 5]) = -(2 ^ 31 + 5) ∧
      Scm_BignumToSI 32 (ScmBignum.mk (-1) 1 [2 ^ 31 + 5]) = some (2 ^ 31 - 5) := by
  decide

/-- C5. `Scm_MakeBignumFromSI(LONG_MIN)` builds sign -1 and words `[0, 1]`,
which denote `-2^32`, while `LONG_MIN` is `-2^31`. -/
theorem Scm_MakeBignumFromSI_LONG_MIN (junk : Junk) :
    Scm_MakeBignumFromSI 32 junk (LONG_MIN 32) = ScmBignum.mk (-1) 2 [0, 1] ∧
      value 32 (ScmBignum.mk (-1) 2 [0, 1]) = -2 ^ 32 ∧ LONG_MIN 32 = -2 ^ 31 :=
  ⟨rfl, by decide, by decide⟩

/-- C9. For the normalized bignum `2^29`, whose negation is the native `-2^29`:
`bignum_add_si` stores 0 in word 0 and leaves word 1 of the result as the
allocator gave it, so `Scm_BignumAddSI` returns a bignum, not the native 0,
whenever that word is not zero. -/
theorem Scm_BignumAddSI_negation_not_zero (junk : Junk) :
    Normalized 32 (-2 ^ 29) (2 ^ 29 - 1) (ScmBignum.mk 1 1 [2 ^ 29]) ∧
      Scm_BignumNegate 32 (-2 ^ 29) (2 ^ 29 - 1) junk (ScmBignum.mk 1 1 [2 ^ 29])
        = some (ScmObj.int (-2 ^ 29)) ∧
      bignum_add_si 32 32 junk (ScmBignum.mk 1 1 [2 ^ 29]) (-2 ^ 29)
        = some (ScmBignum.mk 1 2 [0, junk.word 1 % 2 ^ 32]) ∧
      Scm_BignumAddSI 32 32 (-2 ^ 29) (2 ^ 29 - 1) (Junk.mk 0 (fun _ => 1))
        (ScmBignum.mk 1 1 [2 ^ 29]) (-2 ^ 29) = some (ScmObj.bignum (ScmBignum.mk 1 2 [0, 1])) := by
  refine ⟨by decide, ?_, rfl, by decide⟩
  unfold Scm_BignumNegate
  rw [Scm_BignumCopy_eq 32 junk (ScmBignum.mk 1 1 [2 ^ 29]) (by decide)]
  decide

/-! ## The carry and borrow steps -/

theorem toULong_cases (W : Nat) (z : Int) (h1 : -(2 : Int) ^ W ≤ z) (h2 : z < 2 * (2 : Int) ^ W) :
    ((toULong W z : Nat) : Int) =
      if z < 0 then z + (2 : Int) ^ W else if z < (2 : Int) ^ W then z else z - (2 : Int) ^ W := by
  by_cases hneg : z < 0
  · rw [if_pos hneg]
    exact toULong_of_neg W z hneg h1
  · rw [if_neg hneg]
    by_cases hlt : z < (2 : Int) ^ W
    · rw [if_pos hlt]
      exact toULong_of_nonneg_lt W z (by omega) hlt
    · rw [if_neg hlt, toULong_cast]
      rw [show z = (z - (2 : Int) ^ W) + (2 : Int) ^ W * 1 by ring, Int.add_mul_emod_self_left,
        Int.emod_eq_of_lt (by omega) (by omega)]
      ring

/-- C15. For `W`-bit words `x`, `y` and a carry-in `c` of 0 or 1, the `UADD` step
gives a word `r` and a carry-out `c'` of 0 or 1 with `r + 2^W * c' = x + y + c`;
the carry-out is 1 exactly when the sum wrapped around. -/
theorem UADD_carry (W x y : Nat) (c : Int) (hx : x < 2 ^ W) (hy : y < 2 ^ W)
    (hc : c = 0 ∨ c = 1) :
    ((UADD W x y c).2 = 0 ∨ (UADD W x y c).2 = 1) ∧ (UADD W x y c).1 < 2 ^ W ∧
      (((UADD W x y c).1 : Nat) : Int) + (2 : Int) ^ W * (UADD W x y c).2 = x + y + c ∧
      ((UADD W x y c).2 = 1 ↔ (2 : Int) ^ W ≤ x + y + c) := by
  have hBc := two_pow_cast W
  have hxI : ((x : Nat) : Int) < (2 : Int) ^ W := by rw [hBc]; exact_mod_cast hx
  have hyI : ((y : Nat) : Int) < (2 : Int) ^ W := by rw [hBc]; exact_mod_cast hy
  have hr := toULong_cases W ((x : Int) + y + c) (by omega) (by omega)
  have hxu : toULong W (x : Int) = x := toULong_of_lt W x hx
  have hlt := toULong_lt W ((x : Int) + y + c)
  simp only [UADD, hxu]
  generalize toULong W ((x : Int) + y + c) = r at hr hlt ⊢
  rw [if_neg (by omega)] at hr
  refine ⟨?_, hlt, ?_, ?_⟩
  · split <;> simp
  · split_ifs at hr ⊢ <;> omega
  · split_ifs at hr ⊢ <;> omega

theorem UADD_carry_witness :
    (2 ^ 32 - 1 : Nat) < 2 ^ 32 ∧ (1 : Nat) < 2 ^ 32 ∧
      ((UADD 32 ((2 ^ 32 - 1 : Nat) : Int) ((1 : Nat) : Int) 0).2 = 0 ∨
          (UADD 32 ((2 ^ 32 - 1 : Nat) : Int) ((1 : Nat) : Int) 0).2 = 1) ∧
        (UADD 32 ((2 ^ 32 - 1 : Nat) : Int) ((1 : Nat) : Int) 0).1 < 2 ^ 32 ∧
        (((UADD 32 ((2 ^ 32 - 1 : Nat) : Int) ((1 : Nat) : Int) 0).1 : Nat) : Int)
            + (2 : Int) ^ 32 * (UADD 32 ((2 ^ 32 - 1 : Nat) : Int) ((1 : Nat) : Int) 0).2
          = ((2 ^ 32 - 1 : Nat) : Int) + ((1 : Nat) : Int) + 0 ∧
        ((UADD 32 ((2 ^ 32 - 1 : Nat) : Int) ((1 : Nat) : Int) 0).2 = 1 ↔
          (2 : Int) ^ 32 ≤ ((2 ^ 32 - 1 : Nat) : Int) + ((1 : Nat) : Int) + 0) :=
  ⟨by decide, by decide, UADD_carry 32 (2 ^ 32 - 1) 1 0 (by decide) (by decide) (Or.inl rfl)⟩

/-- C16. For `W`-bit words `x`, `y` and a borrow-in `c` of 0 or 1, the `USUB` step
gives a word `r` and a borrow-out `c'` of 0 or 1 with `r - 2^W * c' = x - y - c`;
the borrow-out is 1 exactly when `x < y + c`. -/
theorem USUB_borrow (W x y : Nat) (c : Int) (hx : x < 2 ^ W) (hy : y < 2 ^ W)
    (hc : c = 0 ∨ c = 1) :
    ((USUB W x y c).2 = 0 ∨ (USUB W x y c).2 = 1) ∧ (USUB W x y c).1 < 2 ^ W ∧
      (((USUB W x y c).1 : Nat) : Int) - (2 : Int) ^ W * (USUB W x y c).2 = x - y - c ∧
      ((USUB W x y c).2 = 1 ↔ (x : Int) < y + c) := by
  have hBc := two_pow_cast W
  have hxI : ((x : Nat) : Int) < (2 : Int) ^ W := by rw [hBc]; exact_mod_cast hx
  have hyI : ((y : Nat) : Int) < (2 : Int) ^ W := by rw [hBc]; exact_mod_cast hy
  have hr := toULong_cases W ((x : Int) - y - c) (by omega) (by omega)
  have hxu : toULong W (x : Int) = x := toULong_of_lt W x hx
  have hlt := toULong_lt W ((x : Int) - y - c)
  simp only [USUB, hxu]
  generalize toULong W ((x : Int) - y - c) = r at hr hlt ⊢
  refine ⟨?_, hlt, ?_, ?_⟩
  · split <;> simp
  · split_ifs at hr ⊢ <;> omega
  · split_ifs at hr ⊢ <;> omega

theorem USUB_borrow_witness :
    (10 : Nat) < 2 ^ 32 ∧ (15 : Nat) < 2 ^ 32 ∧
      ((USUB 32 ((10 : Nat) : Int) ((15 : Nat) : Int) 0).2 = 0 ∨
          (USUB 32 ((10 : Nat) : Int) ((15 : Nat) : Int) 0).2 = 1) ∧
        (USUB 32 ((10 : Nat) : Int) ((15 : Nat) : Int) 0).1 < 2 ^ 32 ∧
        (((USUB 32 ((10 : Nat) : Int) ((15 : Nat) : Int) 0).1 : Nat) : Int)
            - (2 : Int) ^ 32 * (USUB 32 ((10 : Nat) : Int) ((15 : Nat) : Int) 0).2
          = ((10 : Nat) : Int) - ((15 : Nat) : Int) - 0 ∧
        ((USUB 32 ((10 : Nat) : Int) ((15 : Nat) : Int) 0).2 = 1 ↔
          ((10 : Nat) : Int) < ((15 : Nat) : Int) + 0) :=
  ⟨by decide, by decide, USUB_borrow 32 10 15 0 (by decide) (by decide) (Or.inl rfl)⟩

/-! ## Word multiplication -/

theorem LO_eq (W w : Nat) : LO W w = w % 2 ^ HALF_BITS W := by
  unfold LO LOMASK
  exact Nat.and_pow_two_sub_one_eq_mod w (HALF_BITS W)

theorem HI_eq (W w : Nat) : HI W w = (w / 2 ^ HALF_BITS W) % 2 ^ HALF_BITS W := by
  unfold HI LOMASK
  rw [Nat.and_pow_two_sub_one_eq_mod, Nat.shiftRight_eq_div_pow]

theorem add_mod_carry (B a b : Nat) (ha : a < B) (hb : b < B) :
    ((a + b) % B < a → (a + b) % B + B = a + b) ∧
      (¬ (a + b) % B < a → (a + b) % B = a + b) := by
  by_cases h : a + b < B
  · rw [Nat.mod_eq_of_lt h]
    exact ⟨fun h1 => by omega, fun _ => rfl⟩
  · have hm : (a + b) % B = a + b - B := by
      rw [Nat.mod_eq_sub_mod (by omega), Nat.mod_eq_of_lt (by omega)]
    rw [hm]
    exact ⟨fun _ => by omega, fun h1 => by omega⟩

theorem umul_identity (H xl xh yl yh t3 q m lo1 c1 c2 : Int)
    (e1 : xl * yh + xh * yl = c1 * (H * H) + t3) (e2 : t3 = q * H + m)
    (e3 : xl * yl + m * H = c2 * (H * H) + lo1) :
    (xh * yh + c1 * H + q + c2) * (H * H) + lo1 = (xh * H + xl) * (yh * H + yl) := by
  linear_combination (-H) * e1 + (-H) * e2 - e3

/-- The arithmetic of `UMUL` on half-words below `H`, with word base `B = H * H`. -/
theorem umul_arith (H B xl xh yl yh : Nat) (hB : B = H * H) (hxl : xl < H) (hxh : xh < H)
    (hyl : yl < H) (hyh : yh < H) :
    (if ((xl * yl) % B + (((xl * yh) % B + (xh * yl) % B) % B % H * H) % B) % B
          < (((xl * yh) % B + (xh * yl) % B) % B % H * H) % B
      then (((if ((xl * yh) % B + (xh * yl) % B) % B < (xl * yh) % B
                then ((xh * yh) % B + H) % B else (xh * yh) % B)
              + ((xl * yh) % B + (xh * yl) % B) % B / H % H) % B + 1) % B
      else ((if ((xl * yh) % B + (xh * yl) % B) % B < (xl * yh) % B
                then ((xh * yh) % B + H) % B else (xh * yh) % B)
              + ((xl * yh) % B + (xh * yl) % B) % B / H % H) % B) * B
        + ((xl * yl) % B + (((xl * yh) % B + (xh * yl) % B) % B % H * H) % B) % B
      = (xh * H + xl) * (yh * H + yl) ∧
    ((xl * yl) % B + (((xl * yh) % B + (xh * yl) % B) % B % H * H) % B) % B < B := by
  have hH : 0 < H := by omega
  have hBpos : 0 < B := by rw [hB]; exact Nat.mul_pos hH hH
  have hprod : ∀ a b : Nat, a < H → b < H → a * b < B := fun a b ha hb => by
    rw [hB]; exact Nat.mul_lt_mul'' ha hb
  rw [Nat.mod_eq_of_lt (hprod xl yl hxl hyl), Nat.mod_eq_of_lt (hprod xl yh hxl hyh),
    Nat.mod_eq_of_lt (hprod xh yl hxh hyl), Nat.mod_eq_of_lt (hprod xh yh hxh hyh)]
  have ht1 := hprod xl yh hxl hyh
  have ht2 := hprod xh yl hxh hyl
  have hlo0 := hprod xl yl hxl hyl
  have hhi0 := hprod xh yh hxh hyh
  -- the middle sum
  obtain ⟨hc1, hn1⟩ := add_mod_carry B (xl * yh) (xh * yl) ht1 ht2
  have ht3 : (xl * yh + xh * yl) % B < B := Nat.mod_lt _ hBpos
  generalize (xl * yh + xh * yl) % B = t3 at hc1 hn1 ht3 ⊢
  have hq : t3 / H < H := Nat.div_lt_of_lt_mul (by rw [← hB]; exact ht3)
  have hm : t3 % H < H := Nat.mod_lt _ hH
  have hqm : t3 = t3 / H * H + t3 % H := (Nat.div_add_mod' t3 H).symm
  have ht4' : t3 % H * H < B := by rw [hB]; exact Nat.mul_lt_mul_of_pos_right hm hH
  rw [Nat.mod_eq_of_lt hq, Nat.mod_eq_of_lt ht4']
  generalize t3 / H = q at hq hqm ⊢
  generalize t3 % H = m at hm hqm ⊢
  have ht4 : m * H < B := by rw [hB]; exact Nat.mul_lt_mul_of_pos_right hm hH
  obtain ⟨hc2, hn2⟩ := add_mod_carry B (m * H) (xl * yl) ht4 hlo0
  rw [Nat.add_comm (m * H) (xl * yl)] at hc2 hn2
  have hlo1 : (xl * yl + m * H) % B < B := Nat.mod_lt _ hBpos
  generalize (xl * yl + m * H) % B = lo1 at hc2 hn2 hlo1 ⊢
  refine ⟨?_, hlo1⟩
  have hxy : (xh * H + xl) * (yh * H + yl) < B * B := by
    have h1 : xh * H + xl < B := by
      rw [hB]; calc xh * H + xl < xh * H + H := by omega
        _ = (xh + 1) * H := by ring
        _ ≤ H * H := Nat.mul_le_mul_right H hxh
    have h2 : yh * H + yl < B := by
      rw [hB]; calc yh * H + yl < yh * H + H := by omega
        _ = (yh + 1) * H := by ring
        _ ≤ H * H := Nat.mul_le_mul_right H hyh
    exact Nat.mul_lt_mul'' h1 h2
  -- the exact product, with the two carries as numbers
  have key : ∀ c1 c2 : Nat, xl * yh + xh * yl = c1 * B + t3 → xl * yl + m * H = c2 * B + lo1 →
      (xh * yh + c1 * H + q + c2) * B + lo1 = (xh * H + xl) * (yh * H + yl) := by
    intro c1 c2 e1 e3
    rw [hB] at e1 e3 ⊢
    have := umul_identity H xl xh yl yh t3 q m lo1 c1 c2
      (by exact_mod_cast e1) (by exact_mod_cast hqm) (by exact_mod_cast e3)
    exact_mod_cast this
  have small : ∀ hi : Nat, hi * B + lo1 = (xh * H + xl) * (yh * H + yl) → hi < B := by
    intro hi e
    by_contra hge
    have : B * B ≤ hi * B := Nat.mul_le_mul_right B (by omega)
    omega
  by_cases h1 : t3 < xl * yh
  · have e1 : xl * yh + xh * yl = 1 * B + t3 := by have := hc1 h1; omega
    by_cases h2 : lo1 < m * H
    · have e3 : xl * yl + m * H = 1 * B + lo1 := by have := hc2 h2; omega
      have k := key 1 1 e1 e3
      have hs := small _ k
      have m1 : (xh * yh + H) % B = xh * yh + H := Nat.mod_eq_of_lt (by omega)
      have m2 : (xh * yh + H + q) % B = xh * yh + H + q := Nat.mod_eq_of_lt (by omega)
      have m3 : (xh * yh + H + q + 1) % B = xh * yh + H + q + 1 := Nat.mod_eq_of_lt (by omega)
      rw [if_pos h1, if_pos h2, m1, m2, m3, ← k]; ring
    · have e3 : xl * yl + m * H = 0 * B + lo1 := by have := hn2 h2; omega
      have k := key 1 0 e1 e3
      have hs := small _ k
      have m1 : (xh * yh + H) % B = xh * yh + H := Nat.mod_eq_of_lt (by omega)
      have m2 : (xh * yh + H + q) % B = xh * yh + H + q := Nat.mod_eq_of_lt (by omega)
      rw [if_pos h1, if_neg h2, m1, m2, ← k]; ring
  · have e1 : xl * yh + xh * yl = 0 * B + t3 := by have := hn1 h1; omega
    by_cases h2 : lo1 < m * H
    · have e3 : xl * yl + m * H = 1 * B + lo1 := by have := hc2 h2; omega
      have k := key 0 1 e1 e3
      have hs := small _ k
      have m2 : (xh * yh + q) % B = xh * yh + q := Nat.mod_eq_of_lt (by omega)
      have m3 : (xh * yh + q + 1) % B = xh * yh + q + 1 := Nat.mod_eq_of_lt (by omega)
      rw [if_neg h1, if_pos h2, m2, m3, ← k]; ring
    · have e3 : xl * yl + m * H = 0 * B + lo1 := by have := hn2 h2; omega
      have k := key 0 0 e1 e3
      have hs := small _ k
      have m2 : (xh * yh + q) % B = xh * yh + q := Nat.mod_eq_of_lt (by omega)
      rw [if_neg h1, if_neg h2, m2, ← k]; ring

/-- C17. For words `x`, `y` of `W = WORD_BITS` bits, each possibly using the full
width, `UMUL` gives words `hi` and `lo` with `hi * 2^W + lo = x * y`, every
intermediate operation being taken modulo `2^W`. -/
theorem UMUL_exact (SIZEOF_LONG x y : Nat) (hx : x < 2 ^ WORD_BITS SIZEOF_LONG)
    (hy : y < 2 ^ WORD_BITS SIZEOF_LONG) :
    (UMUL (WORD_BITS SIZEOF_LONG) x y).1 * 2 ^ WORD_BITS SIZEOF_LONG
        + (UMUL (WORD_BITS SIZEOF_LONG) x y).2 = x * y ∧
      (UMUL (WORD_BITS SIZEOF_LONG) x y).1 < 2 ^ WORD_BITS SIZEOF_LONG ∧
      (UMUL (WORD_BITS SIZEOF_LONG) x y).2 < 2 ^ WORD_BITS SIZEOF_LONG := by
  have hh : HALF_BITS (WORD_BITS SIZEOF_LONG) = SIZEOF_LONG * 4 := by
    unfold HALF_BITS WORD_BITS; omega
  have hB : 2 ^ WORD_BITS SIZEOF_LONG = 2 ^ (SIZEOF_LONG * 4) * 2 ^ (SIZEOF_LONG * 4) := by
    rw [← pow_add]; congr 1; unfold WORD_BITS; omega
  have hHpos : 0 < 2 ^ (SIZEOF_LONG * 4) := by positivity
  simp only [UMUL, LO_eq, HI_eq, hh]
  generalize 2 ^ WORD_BITS SIZEOF_LONG = B at hx hy hB ⊢
  generalize 2 ^ (SIZEOF_LONG * 4) = H at hB hHpos ⊢
  have hxh : x / H < H := Nat.div_lt_of_lt_mul (by rw [← hB]; exact hx)
  have hyh : y / H < H := Nat.div_lt_of_lt_mul (by rw [← hB]; exact hy)
  have hxe : x / H % H * H + x % H = x := by
    rw [Nat.mod_eq_of_lt hxh]; exact Nat.div_add_mod' x H
  have hye : y / H % H * H + y % H = y := by
    rw [Nat.mod_eq_of_lt hyh]; exact Nat.div_add_mod' y H
  obtain ⟨e, hl⟩ := umul_arith H B (x % H) (x / H % H) (y % H) (y / H % H) hB
    (Nat.mod_lt _ hHpos) (Nat.mod_lt _ hHpos) (Nat.mod_lt _ hHpos) (Nat.mod_lt _ hHpos)
  rw [hxe, hye] at e
  refine ⟨e, ?_, hl⟩
  by_contra hge
  have h1 : B * B ≤ _ * B := Nat.mul_le_mul_right B (Nat.le_of_not_lt hge)
  have h2 : x * y < B * B := Nat.mul_lt_mul'' hx hy
  omega

theorem UMUL_exact_witness :
    123456789 < 2 ^ WORD_BITS 4 ∧ 987654321 < 2 ^ WORD_BITS 4 ∧
      (UMUL (WORD_BITS 4) 123456789 987654321).1 * 2 ^ WORD_BITS 4
          + (UMUL (WORD_BITS 4) 123456789 987654321).2 = 123456789 * 987654321 ∧
        (UMUL (WORD_BITS 4) 123456789 987654321).1 < 2 ^ WORD_BITS 4 ∧
        (UMUL (WORD_BITS 4) 123456789 987654321).2 < 2 ^ WORD_BITS 4 :=
  ⟨by decide, by decide, UMUL_exact 4 123456789 987654321 (by decide) (by decide)⟩

/-! ## Result size for add and subtract -/

theorem SCM_ULONG_MAX_eq (W : Nat) : SCM_ULONG_MAX W = 2 ^ W - 1 := by
  have hpos : 0 < 2 ^ W := by positivity
  have hBc := two_pow_cast W
  have h := toULong_of_neg W (-1) (by decide) (by omega)
  unfold SCM_ULONG_MAX
  omega

theorem pow_mul_succ (W n : Nat) : 2 ^ (W * (n + 1)) = 2 ^ W * 2 ^ (W * n) := by
  rw [Nat.mul_succ, Nat.pow_add, Nat.mul_comm]

theorem pow_le_pow_words (W m n : Nat) (h : m ≤ n) : 2 ^ (W * m) ≤ 2 ^ (W * n) :=
  Nat.pow_le_pow_right (by decide) (Nat.mul_le_mul_left W h)

/-- Two magnitudes of at most `n` words add up to less than `n + 1` words. -/
theorem sum_lt_succ (W a b n : Nat) (hW : 0 < W) (ha : a < 2 ^ (W * n)) (hb : b < 2 ^ (W * n)) :
    a + b < 2 ^ (W * (n + 1)) := by
  rw [pow_mul_succ]
  have h2 : 2 ≤ 2 ^ W := by
    calc 2 = 2 ^ 1 := rfl
      _ ≤ 2 ^ W := Nat.pow_le_pow_right (by decide) hW
  have h3 : 2 * 2 ^ (W * n) ≤ 2 ^ W * 2 ^ (W * n) := Nat.mul_le_mul_right _ h2
  omega

/-- A magnitude of `n + 1` words whose top word is not all ones, plus a
magnitude of at most `n` words, is less than `n + 1` words. -/
theorem sum_lt_of_top (W : Nat) (vs : List Nat) (b n : Nat) (hvs : ∀ w ∈ vs, w < 2 ^ W)
    (htop : vs.getD n 0 ≠ 2 ^ W - 1) (hb : b < 2 ^ (W * n)) :
    magnitude W vs (n + 1) + b < 2 ^ (W * (n + 1)) := by
  rw [pow_mul_succ, magnitude_succ]
  have hlow := magnitude_lt W vs hvs n
  have ht := getD_lt_of_mem W vs hvs n
  have h1 : (vs.getD n 0 + 2) * 2 ^ (W * n) ≤ 2 ^ W * 2 ^ (W * n) :=
    Nat.mul_le_mul_right _ (by omega)
  rw [Nat.add_mul] at h1
  omega

/-- C14. For operands with at least one word each, the size `n` returned by
`bignum_safe_size_for_add` is large enough for the sum of the magnitudes,
`|x| + |y| < 2^(W*n)`; it is `max(size x, size y) + 1` when the sizes are equal
or the top word of the longer operand is all ones, and `max(size x, size y)`
otherwise. -/
theorem bignum_safe_size_for_add_enough (W : Nat) (x y : ScmBignum)
    (hx : WellFormed W x) (hy : WellFormed W y) (hxs : 1 ≤ x.size) (hys : 1 ≤ y.size) :
    ∃ n, bignum_safe_size_for_add W x y = some n ∧
      magnitude W x.values x.size + magnitude W y.values y.size < 2 ^ (W * n) ∧
      n = if x.size = y.size ∨ (y.size < x.size ∧ x.values.getD (x.size - 1) 0 = 2 ^ W - 1) ∨
            (x.size < y.size ∧ y.values.getD (y.size - 1) 0 = 2 ^ W - 1)
          then max x.size y.size + 1 else max x.size y.size := by
  obtain ⟨hxa, hxw⟩ := hx
  obtain ⟨hya, hyw⟩ := hy
  have hmx := magnitude_lt W x.values hxw x.size
  have hmy := magnitude_lt W y.values hyw y.size
  have hrx : rd x (x.size - 1) = some (x.values.getD (x.size - 1) 0) :=
    rd_of_lt x _ (by omega)
  have hry : rd y (y.size - 1) = some (y.values.getD (y.size - 1) 0) :=
    rd_of_lt y _ (by omega)
  -- with words of zero bits every magnitude is zero
  have hzero : W = 0 → ∀ n, magnitude W x.values x.size + magnitude W y.values y.size
      < 2 ^ (W * n) := by
    intro h0 n
    subst h0
    simp only [Nat.zero_mul, Nat.pow_zero] at hmx hmy ⊢
    omega
  have hsucc : ∀ n, x.size ≤ n → y.size ≤ n →
      magnitude W x.values x.size + magnitude W y.values y.size < 2 ^ (W * (n + 1)) := by
    intro n h1 h2
    by_cases hW : W = 0
    · exact hzero hW _
    · exact sum_lt_succ W _ _ n (by omega)
        (lt_of_lt_of_le hmx (pow_le_pow_words W _ _ h1))
        (lt_of_lt_of_le hmy (pow_le_pow_words W _ _ h2))
  unfold bignum_safe_size_for_add
  simp only [SCM_ULONG_MAX_eq]
  by_cases hgt : x.size > y.size
  · rw [if_pos hgt, hrx]
    have hmax : max x.size y.size = x.size := Nat.max_eq_left (by omega)
    by_cases htop : x.values.getD (x.size - 1) 0 = 2 ^ W - 1
    · refine ⟨x.size + 1, by simp only [htop, if_true], hsucc x.size (le_refl _) (by omega), ?_⟩
      rw [if_pos (Or.inr (Or.inl ⟨hgt, htop⟩)), hmax]
    · refine ⟨x.size, by simp only [htop, if_false], ?_, ?_⟩
      · obtain ⟨k, hk⟩ : ∃ k, x.size = k + 1 := ⟨x.size - 1, by omega⟩
        rw [hk] at htop ⊢
        simp only [Nat.add_sub_cancel] at htop
        exact sum_lt_of_top W x.values _ k hxw htop
          (lt_of_lt_of_le hmy (pow_le_pow_words W _ _ (by omega)))
      · rw [if_neg (by
          rintro (h | ⟨_, h⟩ | ⟨h, _⟩)
          · omega
          · exact htop h
          · omega), hmax]
  · rw [if_neg hgt]
    by_cases hlt : y.size > x.size
    · rw [if_pos hlt, hry]
      have hmax : max x.size y.size = y.size := Nat.max_eq_right (by omega)
      by_cases htop : y.values.getD (y.size - 1) 0 = 2 ^ W - 1
      · refine ⟨y.size + 1, by simp only [htop, if_true], hsucc y.size (by omega) (le_refl _), ?_⟩
        rw [if_pos (Or.inr (Or.inr ⟨hlt, htop⟩)), hmax]
      · refine ⟨y.size, by simp only [htop, if_false], ?_, ?_⟩
        · obtain ⟨k, hk⟩ : ∃ k, y.size = k + 1 := ⟨y.size - 1, by omega⟩
          rw [hk] at htop ⊢
          simp only [Nat.add_sub_cancel] at htop
          rw [Nat.add_comm]
          exact sum_lt_of_top W y.values _ k hyw htop
            (lt_of_lt_of_le hmx (pow_le_pow_words W _ _ (by omega)))
        · rw [if_neg (by
            rintro (h | ⟨h, _⟩ | ⟨_, h⟩)
            · omega
            · omega
            · exact htop h), hmax]
    · rw [if_neg hlt]
      have heq : x.size = y.size := by omega
      refine ⟨x.size + 1, rfl, hsucc x.size (le_refl _) (by omega), ?_⟩
      rw [if_pos (Or.inl heq), Nat.max_eq_left (by omega)]

theorem bignum_safe_size_for_add_enough_witness :
    WellFormed 32 (ScmBignum.mk 1 2 [7, 2 ^ 32 - 1]) ∧ WellFormed 32 (ScmBignum.mk 1 1 [9]) ∧
      1 ≤ (ScmBignum.mk 1 2 [7, 2 ^ 32 - 1]).size ∧ 1 ≤ (ScmBignum.mk 1 1 [9]).size ∧
      ∃ n, bignum_safe_size_for_add 32 (ScmBignum.mk 1 2 [7, 2 ^ 32 - 1]) (ScmBignum.mk 1 1 [9])
          = some n ∧
        magnitude 32 (ScmBignum.mk 1 2 [7, 2 ^ 32 - 1]).values (ScmBignum.mk 1 2 [7, 2 ^ 32 - 1]).size
            + magnitude 32 (ScmBignum.mk 1 1 [9]).values (ScmBignum.mk 1 1 [9]).size
          < 2 ^ (32 * n) ∧
        n = if (ScmBignum.mk 1 2 [7, 2 ^ 32 - 1]).size = (ScmBignum.mk 1 1 [9]).size ∨
              ((ScmBignum.mk 1 1 [9]).size < (ScmBignum.mk 1 2 [7, 2 ^ 32 - 1]).size ∧
                (ScmBignum.mk 1 2 [7, 2 ^ 32 - 1]).values.getD
                  ((ScmBignum.mk 1 2 [7, 2 ^ 32 - 1]).size - 1) 0 = 2 ^ 32 - 1) ∨
              ((ScmBignum.mk 1 2 [7, 2 ^ 32 - 1]).size < (ScmBignum.mk 1 1 [9]).size ∧
                (ScmBignum.mk 1 1 [9]).values.getD ((ScmBignum.mk 1 1 [9]).size - 1) 0
                  = 2 ^ 32 - 1)
            then max (ScmBignum.mk 1 2 [7, 2 ^ 32 - 1]).size (ScmBignum.mk 1 1 [9]).size + 1
            else max (ScmBignum.mk 1 2 [7, 2 ^ 32 - 1]).size (ScmBignum.mk 1 1 [9]).size :=
  ⟨by decide, by decide, by decide, by decide,
    bignum_safe_size_for_add_enough 32 (ScmBignum.mk 1 2 [7, 2 ^ 32 - 1]) (ScmBignum.mk 1 1 [9])
      (by decide) (by decide) (by decide) (by decide)⟩

/-! ## Subtraction with borrow and the two's complement fixup -/

theorem getD_drop (l : List Nat) (k j : Nat) : (l.drop k).getD j 0 = l.getD (k + j) 0 := by
  simp [List.getD_eq_getElem?_getD, List.getElem?_drop]

/-- The magnitude of `n + 1` words from index `i` on: lowest word plus `2^W`
times the magnitude of the `n` words above it. -/
theorem magnitude_drop_succ (W : Nat) (l : List Nat) (i : Nat) :
    ∀ n : Nat, magnitude W (l.drop i) (n + 1)
      = l.getD i 0 + 2 ^ W * magnitude W (l.drop (i + 1)) n := by
  intro n
  induction n with
  | zero =>
    rw [magnitude_one, magnitude_zero, getD_drop]; simp
  | succ n ih =>
    rw [magnitude_succ, ih, magnitude_succ, getD_drop, getD_drop, pow_mul_succ]
    have : i + (n + 1) = i + 1 + n := by omega
    rw [this]; ring

theorem magnitude_drop_zero (W : Nat) (l : List Nat) (n : Nat) :
    magnitude W (l.drop 0) n = magnitude W l n := by
  rw [List.drop_zero]

/-- One `USUB` step on words, as the loops use it. -/
theorem usub_step (W x y : Nat) (c : Int) (hx : x < 2 ^ W) (hy : y < 2 ^ W)
    (hc : c = 0 ∨ c = 1) :
    ((USUB W x y c).2 = 0 ∨ (USUB W x y c).2 = 1) ∧ (USUB W x y c).1 < 2 ^ W ∧
      (((USUB W x y c).1 : Nat) : Int) - (2 : Int) ^ W * (USUB W x y c).2 = x - y - c := by
  have hBc := two_pow_cast W
  have hxI : ((x : Nat) : Int) < (2 : Int) ^ W := by rw [hBc]; exact_mod_cast hx
  have hyI : ((y : Nat) : Int) < (2 : Int) ^ W := by rw [hBc]; exact_mod_cast hy
  have hr := toULong_cases W ((x : Int) - y - c) (by omega) (by omega)
  have hxu : toULong W (x : Int) = x := toULong_of_lt W x hx
  have hlt := toULong_lt W ((x : Int) - y - c)
  simp only [USUB, hxu]
  generalize toULong W ((x : Int) - y - c) = r at hr hlt ⊢
  refine ⟨?_, hlt, ?_⟩
  · split <;> simp
  · split_ifs at hr ⊢ <;> omega

theorem toULong_complLong (W v : Nat) (hv : v < 2 ^ W) :
    toULong W (complLong W v) = 2 ^ W - 1 - v := by
  unfold complLong
  rw [toULong_toSLong, Nat.mod_eq_of_lt hv, Nat.mod_eq_of_lt (by omega)]

theorem toULong_congr (W : Nat) (a z : Int) :
    toULong W (a + z) = toULong W (((toULong W a : Nat) : Int) + z) := by
  have h : ((toULong W (a + z) : Nat) : Int)
      = ((toULong W (((toULong W a : Nat) : Int) + z) : Nat) : Int) := by
    rw [toULong_cast, toULong_cast, toULong_cast, Int.emod_add_cancel_right]
    exact (Int.emod_emod_of_dvd a (dvd_refl _)).symm
  exact_mod_cast h

/-- One step of `bignum_2scmpl`: the complement of a word plus the carry. -/
theorem scmpl_step (W v : Nat) (c : Int) (hv : v < 2 ^ W) (hc : c = 0 ∨ c = 1) :
    ((UADD W (complLong W v) 0 c).2 = 0 ∨ (UADD W (complLong W v) 0 c).2 = 1) ∧
      (UADD W (complLong W v) 0 c).1 < 2 ^ W ∧
      (((UADD W (complLong W v) 0 c).1 : Nat) : Int) + (2 : Int) ^ W * (UADD W (complLong W v) 0 c).2
        = (2 : Int) ^ W - 1 - v + c := by
  have hBc := two_pow_cast W
  have hvI : ((v : Nat) : Int) < (2 : Int) ^ W := by rw [hBc]; exact_mod_cast hv
  have hxu := toULong_complLong W v hv
  have hxc : (((2 ^ W - 1 - v : Nat) : Nat) : Int) = (2 : Int) ^ W - 1 - v := by
    rw [hBc]; omega
  have hsum : toULong W (complLong W v + 0 + c) = toULong W ((2 : Int) ^ W - 1 - v + c) := by
    rw [Int.add_zero, toULong_congr, hxu, hxc]
  have hr := toULong_cases W ((2 : Int) ^ W - 1 - v + c) (by omega) (by omega)
  have hlt := toULong_lt W ((2 : Int) ^ W - 1 - v + c)
  simp only [UADD, hxu, hsum]
  generalize toULong W ((2 : Int) ^ W - 1 - v + c) = r at hr hlt ⊢
  rw [if_neg (by omega)] at hr
  refine ⟨?_, hlt, ?_⟩
  · split <;> simp
  · split_ifs at hr ⊢ <;> omega
/-- One iteration of a subtraction loop followed by the rest of the loop: the
words written from index `i` on, read as a number, are the difference of the
operand words that were fed, modulo the borrow. -/
theorem sub_iter (W n i : Nat) (r r1 r' : List Nat) (xv yv : Nat) (c c' : Int)
    (hxv : xv < 2 ^ W) (hyv : yv < 2 ^ W) (hc : c = 0 ∨ c = 1)
    (hw : wr r i (USUB W xv yv c).1 = some r1)
    (ih : r'.length = r1.length ∧ (c' = 0 ∨ c' = 1) ∧
      (∀ j, j < i + 1 → r'.getD j 0 = r1.getD j 0) ∧
      (0 < n → i + 1 + n ≤ r1.length) ∧
      (∀ j, i + 1 ≤ j → j < i + 1 + n → r'.getD j 0 < 2 ^ W) ∧
      ∃ X Y : Nat, X < 2 ^ (W * n) ∧ Y < 2 ^ (W * n) ∧
        magnitude W (r'.drop (i + 1)) n < 2 ^ (W * n) ∧
        ((magnitude W (r'.drop (i + 1)) n : Nat) : Int) - (2 : Int) ^ (W * n) * c'
          = X - Y - (USUB W xv yv c).2) :
    r'.length = r.length ∧ (c' = 0 ∨ c' = 1) ∧
      (∀ j, j < i → r'.getD j 0 = r.getD j 0) ∧
      (0 < n + 1 → i + (n + 1) ≤ r.length) ∧
      (∀ j, i ≤ j → j < i + (n + 1) → r'.getD j 0 < 2 ^ W) ∧
      ∃ X Y : Nat, X < 2 ^ (W * (n + 1)) ∧ Y < 2 ^ (W * (n + 1)) ∧
        magnitude W (r'.drop i) (n + 1) < 2 ^ (W * (n + 1)) ∧
        ((magnitude W (r'.drop i) (n + 1) : Nat) : Int) - (2 : Int) ^ (W * (n + 1)) * c'
          = X - Y - c := by
  obtain ⟨hlen, hc', hagree, hfull, hwords, X, Y, hX, hY, hM, heq⟩ := ih
  obtain ⟨_, hv, hstep⟩ := usub_step W xv yv c hxv hyv hc
  have hi : i < r.length := by
    unfold wr at hw
    by_contra hge
    rw [if_neg hge] at hw
    exact Option.noConfusion hw
  have hr1 : r1 = r.set i (USUB W xv yv c).1 := by
    rw [wr_of_lt r i _ hi] at hw
    exact (Option.some.inj hw).symm
  subst hr1
  have hword : r'.getD i 0 = (USUB W xv yv c).1 := by
    rw [hagree i (by omega), getD_set, if_pos ⟨rfl, hi⟩]
  refine ⟨by rw [hlen, List.length_set], hc', ?_, ?_, ?_,
    xv + 2 ^ W * X, yv + 2 ^ W * Y, ?_, ?_, ?_, ?_⟩
  · intro j hj
    rw [hagree j (by omega), getD_set, if_neg (by omega)]
  · intro _
    by_cases hn : 0 < n
    · have := hfull hn
      rw [List.length_set] at this
      omega
    · omega
  · intro j h1 h2
    by_cases hj : j = i
    · rw [hj, hword]; exact hv
    · exact hwords j (by omega) (by omega)
  · rw [pow_mul_succ]
    have := Nat.mul_le_mul_left (2 ^ W) (show X + 1 ≤ 2 ^ (W * n) by omega)
    rw [Nat.mul_add, Nat.mul_one] at this
    omega
  · rw [pow_mul_succ]
    have := Nat.mul_le_mul_left (2 ^ W) (show Y + 1 ≤ 2 ^ (W * n) by omega)
    rw [Nat.mul_add, Nat.mul_one] at this
    omega
  · rw [pow_mul_succ, magnitude_drop_succ, hword]
    have := Nat.mul_le_mul_left (2 ^ W)
      (show magnitude W (List.drop (i + 1) r') n + 1 ≤ 2 ^ (W * n) by omega)
    rw [Nat.mul_add, Nat.mul_one] at this
    omega
  · have hp : (2 : Int) ^ (W * (n + 1)) = (2 : Int) ^ W * (2 : Int) ^ (W * n) := by
      rw [Nat.mul_succ, pow_add, mul_comm]
    rw [magnitude_drop_succ, hword, hp]
    push_cast
    linear_combination hstep + (2 : Int) ^ W * heq

theorem rd_word (W : Nat) (b : ScmBignum) (hb : ∀ w ∈ b.values, w < 2 ^ W) (i v : Nat)
    (h : rd b i = some v) : v < 2 ^ W := by
  obtain ⟨_, hv⟩ := rd_eq_some b i v h
  rw [← hv]
  exact getD_lt_of_mem W b.values hb i

/-- The loop of `bignum_sub_int`, whenever it runs to its end: the buffer keeps
its length and its words below `i`, the borrow is 0 or 1, and the `n` words
written are `X - Y - c` plus `2^(W*n)` times the final borrow, for the numbers
`X`, `Y` formed by the operand words that were fed. -/
theorem sub_int_loop_inv (W : Nat) (bx y : ScmBignum) (hbx : ∀ w ∈ bx.values, w < 2 ^ W)
    (hy : ∀ w ∈ y.values, w < 2 ^ W) :
    ∀ (n i : Nat) (xs ys c : Int) (r r' : List Nat) (c' : Int), (c = 0 ∨ c = 1) →
      sub_int_loop W bx y n i xs ys c r = some (r', c') →
      r'.length = r.length ∧ (c' = 0 ∨ c' = 1) ∧
        (∀ j, j < i → r'.getD j 0 = r.getD j 0) ∧
        (0 < n → i + n ≤ r.length) ∧
        (∀ j, i ≤ j → j < i + n → r'.getD j 0 < 2 ^ W) ∧
        ∃ X Y : Nat, X < 2 ^ (W * n) ∧ Y < 2 ^ (W * n) ∧
          magnitude W (r'.drop i) n < 2 ^ (W * n) ∧
          ((magnitude W (r'.drop i) n : Nat) : Int) - (2 : Int) ^ (W * n) * c' = X - Y - c := by
  intro n
  induction n with
  | zero =>
    intro i xs ys c r r' c' hc h
    simp only [sub_int_loop, Option.some.injEq, Prod.mk.injEq] at h
    obtain ⟨h1, h2⟩ := h
    subst h1 h2
    refine ⟨rfl, hc, fun _ _ => rfl, fun h => absurd h (Nat.lt_irrefl 0),
      fun j h1 h2 => by omega, 0, 0, by simp, by simp, by simp [magnitude_zero], ?_⟩
    simp [magnitude_zero]
  | succ n ih =>
    intro i xs ys c r r' c' hc h
    have h0 : (0 : Nat) < 2 ^ W := by positivity
    rw [sub_int_loop] at h
    by_cases hxs : xs = 0
    · rw [if_pos hxs] at h
      by_cases hys : ys = 0
      · rw [if_pos hys] at h
        simp only at h
        cases hw : wr r i (USUB W 0 0 c).1 with
        | none => rw [hw] at h; exact Option.noConfusion h
        | some r1 =>
          rw [hw] at h
          have hu := usub_step W 0 0 c h0 h0 hc
          simp only [Nat.cast_zero] at hu
          have hrec := ih (i + 1) _ _ _ r1 r' c' hu.1 h
          have := sub_iter W n i r r1 r' 0 0 c c' h0 h0 hc (by simpa using hw)
            (by simpa using hrec)
          simpa using this
      · rw [if_neg hys] at h
        cases hr : rd y i with
        | none => rw [hr] at h; exact Option.noConfusion h
        | some yv =>
          rw [hr] at h
          simp only at h
          have hyv := rd_word W y hy i yv hr
          cases hw : wr r i (USUB W 0 yv c).1 with
          | none => rw [hw] at h; exact Option.noConfusion h
          | some r1 =>
            rw [hw] at h
            have hu := usub_step W 0 yv c h0 hyv hc
            simp only [Nat.cast_zero] at hu
            have hrec := ih (i + 1) _ _ _ r1 r' c' hu.1 h
            have := sub_iter W n i r r1 r' 0 yv c c' h0 hyv hc (by simpa using hw)
              (by simpa using hrec)
            simpa using this
    · rw [if_neg hxs] at h
      by_cases hys : ys = 0
      · rw [if_pos hys] at h
        cases hr : rd bx i with
        | none => rw [hr] at h; exact Option.noConfusion h
        | some xv =>
          rw [hr] at h
          simp only at h
          have hxv := rd_word W bx hbx i xv hr
          cases hw : wr r i (USUB W xv 0 c).1 with
          | none => rw [hw] at h; exact Option.noConfusion h
          | some r1 =>
            rw [hw] at h
            have hu := usub_step W xv 0 c hxv h0 hc
            simp only [Nat.cast_zero] at hu
            have hrec := ih (i + 1) _ _ _ r1 r' c' hu.1 h
            have := sub_iter W n i r r1 r' xv 0 c c' hxv h0 hc (by simpa using hw)
              (by simpa using hrec)
            simpa using this
      · rw [if_neg hys] at h
        cases hrx : rd bx i with
        | none => rw [hrx] at h; exact Option.noConfusion h
        | some xv =>
          rw [hrx] at h
          simp only at h
          cases hry : rd y i with
          | none => rw [hry] at h; exact Option.noConfusion h
          | some yv =>
            rw [hry] at h
            simp only at h
            have hxv := rd_word W bx hbx i xv hrx
            have hyv := rd_word W y hy i yv hry
            cases hw : wr r i (USUB W xv yv c).1 with
            | none => rw [hw] at h; exact Option.noConfusion h
            | some r1 =>
              rw [hw] at h
              have hu := usub_step W xv yv c hxv hyv hc
              have hrec := ih (i + 1) _ _ _ r1 r' c' hu.1 h
              exact sub_iter W n i r r1 r' xv yv c c' hxv hyv hc hw hrec

/-- The loop of `bignum_2scmpl` on `W`-bit words runs to its end, and the `n`
words from index `i` on then hold the complement of what they held, plus the
carry-in, modulo the carry-out. -/
theorem scmpl_loop_inv (W : Nat) :
    ∀ (n i : Nat) (c : Int) (r : List Nat), (c = 0 ∨ c = 1) → i + n ≤ r.length →
      (∀ j, i ≤ j → j < i + n → r.getD j 0 < 2 ^ W) →
      ∃ r2 c2, scmpl_loop W n i c r = some (r2, c2) ∧ r2.length = r.length ∧
        (c2 = 0 ∨ c2 = 1) ∧ (∀ j, j < i → r2.getD j 0 = r.getD j 0) ∧
        magnitude W (r2.drop i) n < 2 ^ (W * n) ∧
        ((magnitude W (r2.drop i) n : Nat) : Int) + (2 : Int) ^ (W * n) * c2
          = (2 : Int) ^ (W * n) - 1 - (magnitude W (r.drop i) n : Nat) + c := by
  intro n
  induction n with
  | zero =>
    intro i c r hc _ _
    refine ⟨r, c, rfl, rfl, hc, fun _ _ => rfl, by simp [magnitude_zero], ?_⟩
    simp [magnitude_zero]
  | succ n ih =>
    intro i c r hc hlen hwords
    have hi : i < r.length := by omega
    have hv := hwords i (le_refl _) (by omega)
    obtain ⟨hu2, hu1, hstep⟩ := scmpl_step W (r.getD i 0) c hv hc
    have hrest : ∀ j, i + 1 ≤ j → j < i + 1 + n →
        (r.set i (UADD W (complLong W (r.getD i 0)) 0 c).1).getD j 0 < 2 ^ W := by
      intro j h1 h2
      rw [getD_set, if_neg (by omega)]
      exact hwords j (by omega) (by omega)
    obtain ⟨r2, c2, hloop, hl2, hc2, hagree, hM, heq⟩ :=
      ih (i + 1) (UADD W (complLong W (r.getD i 0)) 0 c).2
        (r.set i (UADD W (complLong W (r.getD i 0)) 0 c).1) hu2
        (by rw [List.length_set]; omega) hrest
    have hword : r2.getD i 0 = (UADD W (complLong W (r.getD i 0)) 0 c).1 := by
      rw [hagree i (by omega), getD_set, if_pos ⟨rfl, hi⟩]
    have hsame : magnitude W ((r.set i (UADD W (complLong W (r.getD i 0)) 0 c).1).drop (i + 1)) n
        = magnitude W (r.drop (i + 1)) n := by
      apply magnitude_congr
      intro j _
      rw [getD_drop, getD_drop, getD_set, if_neg (by omega)]
    rw [hsame] at heq
    have hp : (2 : Int) ^ (W * (n + 1)) = (2 : Int) ^ W * (2 : Int) ^ (W * n) := by
      rw [Nat.mul_succ, pow_add, mul_comm]
    refine ⟨r2, c2, ?_, by rw [hl2, List.length_set], hc2, ?_, ?_, ?_⟩
    · rw [scmpl_loop, List.getElem?_eq_getElem hi, ← List.getD_eq_getElem r 0 hi]
      simp only [wr_of_lt r i _ hi]
      exact hloop
    · intro j hj
      rw [hagree j (by omega), getD_set, if_neg (by omega)]
    · rw [pow_mul_succ, magnitude_drop_succ, hword]
      have := Nat.mul_le_mul_left (2 ^ W)
        (show magnitude W (List.drop (i + 1) r2) n + 1 ≤ 2 ^ (W * n) by omega)
      rw [Nat.mul_add, Nat.mul_one] at this
      omega
    · rw [magnitude_drop_succ, magnitude_drop_succ, hword, hp]
      push_cast
      linear_combination hstep + (2 : Int) ^ W * heq

/-- C18. Whenever the loop of `bignum_sub_int` ends with a non-zero borrow, the
result buffer is not all zero, `bignum_2scmpl` on it ends with `c == 0` (its
assertion holds), and the buffer then holds `2^(W*rsize)` minus what it held. -/
theorem bignum_2scmpl_after_borrow (W : Nat) (br bx y : ScmBignum)
    (hbx : ∀ w ∈ bx.values, w < 2 ^ W) (hy : ∀ w ∈ y.values, w < 2 ^ W)
    (r : List Nat) (c : Int)
    (hloop : sub_int_loop W bx y br.size 0 bx.size y.size 0 br.values = some (r, c))
    (hc : c ≠ 0) :
    magnitude W r br.size ≠ 0 ∧
      ∃ r2, scmpl_loop W br.size 0 1 r = some (r2, 0) ∧
        bignum_2scmpl W { br with values := r } = some { br with values := r2 } ∧
        magnitude W r2 br.size + magnitude W r br.size = 2 ^ (W * br.size) := by
  obtain ⟨hlen, hc01, _, hfull, hwords, X, Y, hX, hY, hM, heq⟩ :=
    sub_int_loop_inv W bx y hbx hy br.size 0 bx.size y.size 0 br.values r c (Or.inl rfl) hloop
  have hc1 : c = 1 := by omega
  subst hc1
  rw [magnitude_drop_zero] at hM heq
  have hPc := two_pow_cast (W * br.size)
  have hXI : ((X : Nat) : Int) < (2 : Int) ^ (W * br.size) := by rw [hPc]; exact_mod_cast hX
  have hYI : ((Y : Nat) : Int) < (2 : Int) ^ (W * br.size) := by rw [hPc]; exact_mod_cast hY
  have hMI : ((magnitude W r br.size : Nat) : Int) < (2 : Int) ^ (W * br.size) := by
    rw [hPc]; exact_mod_cast hM
  have hne : magnitude W r br.size ≠ 0 := by
    intro h0
    rw [h0] at heq
    simp only [Nat.cast_zero] at heq
    omega
  have hsz : 0 < br.size := by
    by_contra h0
    have hz : br.size = 0 := by omega
    rw [hz] at hne
    exact hne (magnitude_zero W r)
  obtain ⟨r2, c2, hs, _, hc2, _, hM2, heq2⟩ :=
    scmpl_loop_inv W br.size 0 1 r (Or.inr rfl) (by have := hfull hsz; omega)
      (fun j h1 h2 => hwords j h1 (by omega))
  rw [magnitude_drop_zero] at hM2 heq2
  rw [magnitude_drop_zero] at heq2
  have hM2I : ((magnitude W r2 br.size : Nat) : Int) < (2 : Int) ^ (W * br.size) := by
    rw [hPc]; exact_mod_cast hM2
  have hc20 : c2 = 0 := by
    rcases hc2 with h | h
    · exact h
    · rw [h] at heq2; omega
  subst hc20
  refine ⟨hne, r2, hs, ?_, ?_⟩
  · simp only [bignum_2scmpl, hs, if_true]
  · have : ((magnitude W r2 br.size + magnitude W r br.size : Nat) : Int)
        = ((2 ^ (W * br.size) : Nat) : Int) := by
      push_cast; omega
    exact_mod_cast this

theorem bignum_2scmpl_after_borrow_witness :
    (∀ w ∈ (ScmBignum.mk 1 1 [10]).values, w < 2 ^ 32) ∧
      (∀ w ∈ (ScmBignum.mk 1 1 [15]).values, w < 2 ^ 32) ∧
      sub_int_loop 32 (ScmBignum.mk 1 1 [10]) (ScmBignum.mk 1 1 [15])
          (ScmBignum.mk 1 2 [0, 0]).size 0 (ScmBignum.mk 1 1 [10]).size
          (ScmBignum.mk 1 1 [15]).size 0 (ScmBignum.mk 1 2 [0, 0]).values
        = some ([4294967291, 4294967295], 1) ∧
      (1 : Int) ≠ 0 ∧
      magnitude 32 [4294967291, 4294967295] (ScmBignum.mk 1 2 [0, 0]).size ≠ 0 ∧
      ∃ r2, scmpl_loop 32 (ScmBignum.mk 1 2 [0, 0]).size 0 1 [4294967291, 4294967295]
          = some (r2, 0) ∧
        bignum_2scmpl 32 { ScmBignum.mk 1 2 [0, 0] with values := [4294967291, 4294967295] }
          = some { ScmBignum.mk 1 2 [0, 0] with values := r2 } ∧
        magnitude 32 r2 (ScmBignum.mk 1 2 [0, 0]).size
            + magnitude 32 [4294967291, 4294967295] (ScmBignum.mk 1 2 [0, 0]).size
          = 2 ^ (32 * (ScmBignum.mk 1 2 [0, 0]).size) :=
  ⟨by decide, by decide, by decide, by decide,
    bignum_2scmpl_after_borrow 32 (ScmBignum.mk 1 2 [0, 0]) (ScmBignum.mk 1 1 [10])
      (ScmBignum.mk 1 1 [15]) (by decide) (by decide) [4294967291, 4294967295] 1
      (by decide) (by decide)⟩

/-! ## A bignum plus its negation -/

theorem usub_self (W v : Nat) (hv : v < 2 ^ W) : USUB W v v 0 = (0, 0) := by
  have hxu : toULong W (v : Int) = v := toULong_of_lt W v hv
  have h0 : toULong W ((v : Int) - v - 0) = 0 := by
    rw [show (v : Int) - v - 0 = ((0 : Nat) : Int) by simp]
    exact toULong_of_lt W 0 (by positivity)
  simp only [USUB, hxu, h0]
  rw [if_neg (by
    rintro (h | ⟨h, h2 | h2⟩)
    · omega
    · omega
    · omega)]

theorem usub_zero (W : Nat) : USUB W 0 0 0 = (0, 0) := by
  have h := usub_self W 0 (by positivity)
  simpa using h

/-- The loop of `bignum_sub_int` on two operands of `n` words with the same
words writes zeros and ends without a borrow, as long as it stops at word `n`. -/
theorem sub_int_loop_self (W : Nat) (bx y : ScmBignum) (n : Nat)
    (hbx : ∀ w ∈ bx.values, w < 2 ^ W) (hxa : n ≤ bx.values.length)
    (hya : n ≤ y.values.length) (hsame : ∀ j, j < n → y.values.getD j 0 = bx.values.getD j 0) :
    ∀ (k i : Nat) (r : List Nat), i + k ≤ n + 1 → i + k ≤ r.length →
      ∃ r', sub_int_loop W bx y k i ((n : Int) - i) ((n : Int) - i) 0 r = some (r', 0) ∧
        r'.length = r.length ∧ (∀ j, j < i → r'.getD j 0 = r.getD j 0) ∧
        ∀ j, i ≤ j → j < i + k → r'.getD j 0 = 0 := by
  intro k
  induction k with
  | zero =>
    intro i r _ _
    exact ⟨r, rfl, rfl, fun _ _ => rfl, fun j h1 h2 => by omega⟩
  | succ k ih =>
    intro i r hk hr
    have hi : i < r.length := by omega
    have hcnt : ((n : Int) - i - 1) = ((n : Int) - ((i + 1 : Nat) : Int)) := by
      push_cast; ring
    obtain ⟨r', hloop, hlen, hagree, hzero⟩ := ih (i + 1) (r.set i 0) (by omega)
      (by rw [List.length_set]; omega)
    have hfinal : r'.length = r.length ∧ (∀ j, j < i → r'.getD j 0 = r.getD j 0) ∧
        ∀ j, i ≤ j → j < i + (k + 1) → r'.getD j 0 = 0 := by
      refine ⟨by rw [hlen, List.length_set], ?_, ?_⟩
      · intro j hj
        rw [hagree j (by omega), getD_set, if_neg (by omega)]
      · intro j h1 h2
        by_cases hj : j = i
        · rw [hj, hagree i (by omega), getD_set, if_pos ⟨rfl, hi⟩]
        · exact hzero j (by omega) (by omega)
    refine ⟨r', ?_, hfinal⟩
    rw [sub_int_loop]
    by_cases hin : i = n
    · have hz : ((n : Int) - i) = 0 := by omega
      rw [if_pos hz, if_pos hz]
      simp only [usub_zero, wr_of_lt r i 0 hi]
      rw [hcnt]
      exact hloop
    · have hnz : ¬ ((n : Int) - i) = 0 := by omega
      have hlt : i < n := by omega
      rw [if_neg hnz, if_neg hnz, rd_of_lt bx i (by omega), rd_of_lt y i (by omega)]
      simp only [hsame i hlt, usub_self W _ (getD_lt_of_mem W bx.values hbx i),
        wr_of_lt r i 0 hi]
      rw [hcnt]
      exact hloop

/-- A buffer whose words in use are all zero is normalized to the native 0. -/
theorem normalize_zero (W : Nat) (SMIN SMAX : Int) (b : ScmBignum) (hsize : 1 ≤ b.size)
    (halloc : b.size ≤ b.values.length) (hzero : ∀ j, j < b.size → b.values.getD j 0 = 0)
    (hsign : b.sign ≠ 0) :
    Scm_NormalizeBignum W SMIN SMAX b = some (ScmObj.int 0) := by
  obtain ⟨k, hk, _, hnz, hres⟩ := normalize_cases W SMIN SMAX b hsize halloc
  have hk0 : k = 0 := by
    by_contra hne
    exact hnz hne (hzero k hk)
  subst hk0
  have hv0 : b.values.getD 0 0 = 0 := hzero 0 (by omega)
  have ht0 : toSLong W 0 = 0 := by
    have := toSLong_of_lt_half W 0 (by positivity)
    simpa using this
  have hu0 : toULong W (-((0 : Nat) : Int)) = 0 := by
    have := toULong_of_lt W 0 (by positivity)
    simpa using this
  rw [hres, if_pos rfl, if_neg hsign, hv0]
  rcases lt_or_gt_of_ne hsign with hneg | hpos
  · rw [if_neg (fun h => by omega), if_pos ⟨hneg, Nat.zero_le _⟩, hu0, ht0]
  · rw [if_pos ⟨hpos, Nat.zero_le _⟩, ht0]

/-- Adding to a bignum `a` a bignum `c` with the same words and the opposite
sign, as `Scm_BignumNegate` builds it, gives the native integer 0, whatever the
fresh allocation holds. -/
theorem Scm_BignumAdd_opposite (W : Nat) (SMIN SMAX : Int) (junk : Junk) (a c : ScmBignum)
    (ha : WellFormed W a) (hsign : a.sign ≠ 0)
    (hcs : c.sign = -a.sign) (hcz : c.size = a.size) (hca : a.size ≤ c.values.length)
    (hcw : ∀ j, j < a.size → c.values.getD j 0 = a.values.getD j 0) :
    Scm_BignumAdd W SMIN SMAX junk a c = some (ScmObj.int 0) := by
  obtain ⟨haa, haw⟩ := ha
  have hsz : bignum_safe_size_for_add W a c = some (a.size + 1) := by
    unfold bignum_safe_size_for_add
    simp only [hcz, gt_iff_lt, Nat.lt_irrefl, if_false]
  have hne : ¬ a.sign = c.sign := by rw [hcs]; omega
  obtain ⟨r', hloop, hlen, _, hzero⟩ :=
    sub_int_loop_self W a c a.size haw haa hca hcw (a.size + 1) 0
      (make_bignum W junk (a.size + 1)).values (by omega)
      (by rw [make_bignum_length]; omega)
  simp only [Nat.cast_zero, Int.sub_zero] at hloop
  have hadd : bignum_add W junk a c
      = some { sign := a.sign, size := a.size + 1, values := r' } := by
    unfold bignum_add
    rw [hsz]
    simp only [if_neg hne, bignum_sub_int, make_bignum, hcz]
    simp only [make_bignum] at hloop
    rw [hloop]
    simp
  unfold Scm_BignumAdd
  rw [hadd]
  exact normalize_zero W SMIN SMAX _ (by simp) (by
    simp only; rw [hlen, make_bignum_length]) (fun j hj => hzero j (Nat.zero_le _) (by
    simp only at hj; omega)) hsign

/-- When `Scm_BignumNegate` of a normalized bignum is again a bignum, adding the
two with `Scm_BignumAdd` gives the native integer 0. -/
theorem Scm_BignumAdd_negated (W : Nat) (SMIN SMAX : Int) (junk junk2 : Junk)
    (a c : ScmBignum) (hn : Normalized W SMIN SMAX a)
    (hneg : Scm_BignumNegate W SMIN SMAX junk a = some (ScmObj.bignum c)) :
    Scm_BignumAdd W SMIN SMAX junk2 a c = some (ScmObj.int 0) := by
  obtain ⟨⟨halloc, hwords⟩, hsize, htop, hsign, _⟩ := hn
  have htake : ∀ j, j < a.size → (a.values.take a.size).getD j 0 = a.values.getD j 0 := by
    intro j hj
    simp only [List.getD_eq_getElem?_getD, List.getElem?_take]
    rw [if_pos hj]
  unfold Scm_BignumNegate at hneg
  rw [Scm_BignumCopy_eq W junk a halloc] at hneg
  simp only at hneg
  obtain ⟨r, hr, hsame⟩ := normalize_top_nonzero W SMIN SMAX
    ⟨-a.sign, a.size, a.values.take a.size⟩ hsize
    (by simp only; rw [List.length_take]; omega)
    (by simp only; rw [htake _ (by omega)]; exact htop)
  rw [hr] at hneg
  have hc := hsame c (Option.some.inj hneg)
  subst hc
  exact Scm_BignumAdd_opposite W SMIN SMAX junk2 a _ ⟨halloc, hwords⟩
    (by rcases hsign with h | h <;> rw [h] <;> decide) rfl rfl
    (by simp only; rw [List.length_take]; omega) htake

/-! ## Folds -/

/-- C13. In `Scm_BignumAddN` and `Scm_BignumSubN`, when the operands `pre` before
the first non-integer operand are native integers or bignums and that operand is
neither a flonum nor a complex number, the fold ends in the `number expected`
error naming that operand, whatever follows it; and on the all-integer list
`pre` the fold ends by normalizing its accumulator, not in the error. -/
theorem fold_number_expected (W IB : Nat) (SMIN SMAX : Int) (pre post : List Operand)
    (id : Nat) (hpre : ∀ o ∈ pre, o.isInteger = true) :
    ∀ (junk : Nat → Junk) (r : Option ScmBignum),
      Scm_BignumAddN W IB SMIN SMAX junk r (pre ++ Operand.other id :: post)
          = FoldResult.numberExpected (Operand.other id) ∧
        Scm_BignumSubN W IB SMIN SMAX junk r (pre ++ Operand.other id :: post)
          = FoldResult.numberExpected (Operand.other id) ∧
        (∃ res, Scm_BignumAddN W IB SMIN SMAX junk r pre = FoldResult.value res) ∧
        (∃ res, Scm_BignumSubN W IB SMIN SMAX junk r pre = FoldResult.value res) := by
  induction pre with
  | nil =>
    intro junk r
    exact ⟨by simp [Scm_BignumAddN], by simp [Scm_BignumSubN],
      ⟨r.bind (Scm_NormalizeBignum W SMIN SMAX), by simp [Scm_BignumAddN]⟩,
      ⟨r.bind (Scm_NormalizeBignum W SMIN SMAX), by simp [Scm_BignumSubN]⟩⟩
  | cons o pre ih =>
    intro junk r
    have hrest : ∀ o' ∈ pre, o'.isInteger = true :=
      fun o' ho' => hpre o' (List.mem_cons_of_mem o ho')
    have ho : o.isInteger = true := hpre o (List.mem_cons_self o pre)
    cases o with
    | int v =>
      simp only [List.cons_append, Scm_BignumAddN, Scm_BignumSubN]
      exact ⟨(ih hrest _ _).1, (ih hrest _ _).2.1, (ih hrest _ _).2.2.1, (ih hrest _ _).2.2.2⟩
    | bignum b =>
      simp only [List.cons_append, Scm_BignumAddN, Scm_BignumSubN]
      exact ⟨(ih hrest _ _).1, (ih hrest _ _).2.1, (ih hrest _ _).2.2.1, (ih hrest _ _).2.2.2⟩
    | flonum k => exact absurd ho (by simp [Operand.isInteger])
    | complex k => exact absurd ho (by simp [Operand.isInteger])
    | other k => exact absurd ho (by simp [Operand.isInteger])

theorem fold_number_expected_witness :
    (∀ o ∈ [Operand.int 5, Operand.bignum (ScmBignum.mk 1 1 [2 ^ 30])],
        o.isInteger = true) ∧
      ∀ (junk : Nat → Junk) (r : Option ScmBignum),
        Scm_BignumAddN 32 32 (-2 ^ 29) (2 ^ 29 - 1) junk r
            ([Operand.int 5, Operand.bignum (ScmBignum.mk 1 1 [2 ^ 30])]
              ++ Operand.other 7 :: [Operand.int 4])
            = FoldResult.numberExpected (Operand.other 7) ∧
          Scm_BignumSubN 32 32 (-2 ^ 29) (2 ^ 29 - 1) junk r
            ([Operand.int 5, Operand.bignum (ScmBignum.mk 1 1 [2 ^ 30])]
              ++ Operand.other 7 :: [Operand.int 4])
            = FoldResult.numberExpected (Operand.other 7) ∧
          (∃ res, Scm_BignumAddN 32 32 (-2 ^ 29) (2 ^ 29 - 1) junk r
            [Operand.int 5, Operand.bignum (ScmBignum.mk 1 1 [2 ^ 30])]
              = FoldResult.value res) ∧
          (∃ res, Scm_BignumSubN 32 32 (-2 ^ 29) (2 ^ 29 - 1) junk r
            [Operand.int 5, Operand.bignum (ScmBignum.mk 1 1 [2 ^ 30])]
              = FoldResult.value res) :=
  ⟨by decide,
    fold_number_expected 32 32 (-2 ^ 29) (2 ^ 29 - 1)
      [Operand.int 5, Operand.bignum (ScmBignum.mk 1 1 [2 ^ 30])] [Operand.int 4] 7
      (by decide)⟩

/-! ## The shift loops -/

/-- The loop of `bignum_lshift` starts at a non-negative index and counts
upwards, so its exit test `i >= 0` never fails: however many iterations are
run, it does not end with a result. -/
theorem lshift_loop_not_ok (W : Nat) (bx : ScmBignum) (nwords nbits mask : Nat) :
    ∀ (budget : Nat) (i : Int) (prev : Nat) (r v : List Nat), 0 ≤ i →
      lshift_loop W bx nwords nbits mask budget i prev r ≠ Run.ok v := by
  intro budget
  induction budget with
  | zero => intro i prev r v _ h; simp [lshift_loop] at h
  | succ budget ih =>
    intro i prev r v hi h
    rw [lshift_loop, if_pos hi] at h
    cases h1 : rdInt bx i with
    | none => rw [h1] at h; simp at h
    | some w =>
      rw [h1] at h
      simp only at h
      cases h2 : shiftLeft W w nbits with
      | none => rw [h2] at h; simp at h
      | some raised =>
        rw [h2] at h
        simp only at h
        cases h3 : shiftRight W w (W - nbits) with
        | none => rw [h3] at h; simp at h
        | some carried =>
          rw [h3] at h
          simp only at h
          cases h4 : wrInt r (i + nwords) (raised ||| prev) with
          | none => rw [h4] at h; simp at h
          | some r1 =>
            rw [h4] at h
            exact ih (i + 1) _ r1 v (by omega) h

/-- The loop of `bignum_rshift` starts below `bx->size` and counts downwards,
so its exit test `i < bx->size` never fails. -/
theorem rshift_loop_not_ok (W : Nat) (bx : ScmBignum) (nwords nbits : Nat) :
    ∀ (budget : Nat) (i : Int) (prev : Nat) (r v : List Nat), i < bx.size →
      rshift_loop W bx nwords nbits budget i prev r ≠ Run.ok v := by
  intro budget
  induction budget with
  | zero => intro i prev r v _ h; simp [rshift_loop] at h
  | succ budget ih =>
    intro i prev r v hi h
    rw [rshift_loop, if_pos hi] at h
    cases h1 : rdInt bx i with
    | none => rw [h1] at h; simp at h
    | some w =>
      rw [h1] at h
      simp only at h
      cases h2 : shiftRight W w nbits with
      | none => rw [h2] at h; simp at h
      | some lowered =>
        rw [h2] at h
        simp only at h
        cases h3 : shiftLeft W w (W - nbits) with
        | none => rw [h3] at h; simp at h
        | some prev1 =>
          rw [h3] at h
          simp only at h
          cases h4 : wrInt r (i - nwords) (lowered ||| prev) with
          | none => rw [h4] at h; simp at h
          | some r1 =>
            rw [h4] at h
            exact ih (i - 1) _ r1 v (by omega) h

/-- C11. For the one-word bignum `2^30` and any amount, destination and number
of iterations, `bignum_lshift` does not return a result, and neither does
`bignum_rshift` for an amount below 32 (written `amount % 32`); shifting left
by 1 into a two-word buffer stops at the read of `bx->values[1]`, outside the
operand, and shifting right by 1 at the write of `br->values[-1]`. -/
theorem shift_loops_never_return (budget amount : Nat) (br v : ScmBignum) :
    bignum_lshift 32 budget br (ScmBignum.mk 1 1 [2 ^ 30]) amount ≠ Run.ok v ∧
      bignum_rshift 32 budget br (ScmBignum.mk 1 1 [2 ^ 30]) (amount % 32) ≠ Run.ok v ∧
      bignum_lshift 32 8 (ScmBignum.mk 1 2 [0, 0]) (ScmBignum.mk 1 1 [2 ^ 30]) 1
        = Run.fault Fault.bounds ∧
      bignum_rshift 32 8 (ScmBignum.mk 1 2 [0, 0]) (ScmBignum.mk 1 1 [2 ^ 30]) 1
        = Run.fault Fault.bounds := by
  refine ⟨?_, ?_, by decide, by decide⟩
  · intro h
    unfold bignum_lshift at h
    simp only at h
    cases hl : lshift_loop 32 (ScmBignum.mk 1 1 [2 ^ 30]) (amount / 32) (amount % 32)
        (2 ^ (amount % 32) - 1) budget (((ScmBignum.mk 1 1 [2 ^ 30]).size : Int) - 1) 0
        br.values with
    | fault f => rw [hl] at h; simp at h
    | ok vs => exact lshift_loop_not_ok 32 _ _ _ _ budget _ 0 br.values vs (by decide) hl
  · intro h
    have hnw : amount % 32 / 32 = 0 := Nat.div_eq_of_lt (Nat.mod_lt _ (by decide))
    unfold bignum_rshift at h
    simp only [hnw] at h
    rw [if_neg (by decide)] at h
    cases hl : rshift_loop 32 (ScmBignum.mk 1 1 [2 ^ 30]) 0 (amount % 32 % 32) budget
        ((0 : Nat) : Int) 0 br.values with
    | fault f => rw [hl] at h; simp at h
    | ok vs => exact rshift_loop_not_ok 32 _ _ _ budget _ 0 br.values vs (by decide) hl

/-- C19. With an amount that is a multiple of the word width the residual
`nbits` is 0 and the first iteration of either shift loop shifts a word by
`WORD_BITS - nbits = 32`, the full word width. -/
theorem shift_by_word_width :
    32 % 32 = 0 ∧ shiftRight 32 (2 ^ 30) (32 - 32 % 32) = none ∧
      shiftLeft 32 (2 ^ 30) (32 - 32 % 32) = none ∧
      bignum_lshift 32 8 (ScmBignum.mk 1 3 [0, 0, 0]) (ScmBignum.mk 1 1 [2 ^ 30]) 32
        = Run.fault Fault.shiftCount ∧
      bignum_lshift 32 8 (ScmBignum.mk 1 3 [0, 0, 0]) (ScmBignum.mk 1 1 [2 ^ 30]) 0
        = Run.fault Fault.shiftCount ∧
      bignum_rshift 32 8 (ScmBignum.mk 1 3 [0, 0, 0]) (ScmBignum.mk 1 2 [5, 2 ^ 30]) 32
        = Run.fault Fault.shiftCount ∧
      bignum_rshift 32 8 (ScmBignum.mk 1 3 [0, 0, 0]) (ScmBignum.mk 1 2 [5, 2 ^ 30]) 0
        = Run.fault Fault.shiftCount := by
  decide

/-! ## Multiply by a word -/

/-- C12. `bignum_mul_word` on a zeroed two-word destination, `bx = 123456789`
and `y = 987654321`: the destination is left as it was, so its magnitude stays
0 instead of becoming the product, and the function returns `NULL`. -/
theorem bignum_mul_word_no_store :
    bignum_mul_word 32 (ScmBignum.mk 1 2 [0, 0]) (ScmBignum.mk 1 1 [123456789]) 987654321
        = some (ScmBignum.mk 1 2 [0, 0], none) ∧
      magnitude 32 (ScmBignum.mk 1 2 [0, 0]).values 2 = 0 ∧
      magnitude 32 (ScmBignum.mk 1 2 [0, 0]).values 2
          + magnitude 32 (ScmBignum.mk 1 1 [123456789]).values 1 * 987654321
        = 121932631112635269 := by
  decide

/-! ## Reads of the operands -/

/-- C20. With a three-word `bx` and a one-word `by` the destination has three
words and both loops read `by->values[2]`, outside the one word of `by`; the
same happens with a two-word `bx` whose top word is all ones. -/
theorem add_sub_read_outside_operand (junk : Junk) :
    bignum_safe_size_for_add 32 (ScmBignum.mk 1 3 [1, 1, 1]) (ScmBignum.mk 1 1 [2 ^ 30])
        = some 3 ∧
      add_int_reads 3 0 3 1 = [OperandRead.x 0, OperandRead.y 0, OperandRead.x 1,
        OperandRead.x 2, OperandRead.y 2] ∧
      sub_int_reads 3 0 3 1 = [OperandRead.x 0, OperandRead.y 0, OperandRead.x 1,
        OperandRead.x 2, OperandRead.y 2] ∧
      ¬ OperandRead.inside (ScmBignum.mk 1 3 [1, 1, 1]) (ScmBignum.mk 1 1 [2 ^ 30])
        (OperandRead.y 2) ∧
      bignum_safe_size_for_add 32 (ScmBignum.mk 1 2 [1, 2 ^ 32 - 1]) (ScmBignum.mk 1 1 [2 ^ 30])
        = some 3 ∧
      add_int_reads 3 0 2 1 = [OperandRead.x 0, OperandRead.y 0, OperandRead.x 1,
        OperandRead.y 2] ∧
      bignum_add 32 junk (ScmBignum.mk 1 3 [1, 1, 1]) (ScmBignum.mk 1 1 [2 ^ 30]) = none ∧
      bignum_sub 32 junk (ScmBignum.mk 1 3 [1, 1, 1]) (ScmBignum.mk 1 1 [2 ^ 30]) = none :=
  ⟨by decide, by decide, by decide, by decide, by decide, by decide, rfl, rfl⟩

end Gauche
